import Mathlib

/-!
# AnubisX-Crypt: chunked byte-shift transform

A shallow embedding of `src/backend/common.cpp` and of the three back ends
(`encrypt_serial.cpp`, `encrypt_openmp.cpp`, `encrypt_mpi.cpp`), with the
properties of the specification stated over it.

Conventions of the embedding.

* A byte is a natural number; an `unsigned char` holds one below 256.
* `std::uint64_t` and `std::size_t` values (both 64 bits wide) are natural
  numbers below `2 ^ 64`, and every operation on them is reduced modulo
  `2 ^ 64` where the C++ code computes in 64 bits.
* `int` values are integers; `%` on `int` is the truncating `Int.tmod`.
* A file is the list of its bytes. What the operating system answers (file
  size, whether a stream opens, how many bytes a read or write moves) is a
  parameter of the programs, collected in `Device` and `Env`.
* Memory is not modelled, except for the one allocation whose size the user
  chooses directly (`buf.resize(chunkSize)` of the sequential program).
* An output stream may hold the bytes of its last write in its buffer; they
  reach the file at the next `seekp` or when the stream is closed.
* Text written to the standard streams and the timing code are left out: they
  do not act on files or on the exit status.
-/

namespace AnubisX

/-! ## common.hpp -/

/-- The enumeration `Mode` of common.hpp. -/
inductive Mode where
  | Encrypt
  | Decrypt
  deriving DecidableEq, Repr

/-- The structure `Args` of common.hpp, with its default member initialisers. -/
structure Args where
  inPath : String := ""
  outPath : String := ""
  mode : Mode := Mode.Encrypt
  key : Int := 3
  chunkSize : Nat := 4 * 1024 * 1024
  threads : Int := 0
  deriving DecidableEq, Repr

/-! ## Machine arithmetic -/

/-- Number of values of a 64-bit unsigned integer. -/
def U64 : Nat := 2 ^ 64

/-- Addition of `std::uint64_t` values. -/
def add64 (a b : Nat) : Nat := (a + b) % U64

/-- Subtraction of `std::uint64_t` values: the difference modulo `2 ^ 64`
(it wraps around below zero). -/
def sub64 (a b : Nat) : Nat := (((a : Int) - (b : Int)) % (U64 : Int)).toNat

/-- Multiplication of `std::uint64_t` values. -/
def mul64 (a b : Nat) : Nat := (a * b) % U64

/-- Conversion of an `int` to `unsigned char`: reduction modulo `2 ^ 8`. -/
def toUChar (x : Int) : Nat := (x % 256).toNat

/-- The conversion `(long long)n` of a 64-bit unsigned value: the two's
complement reading of its 64 bits. The conversion to `std::streamoff` is the
same function. -/
def toLongLong (n : Nat) : Int :=
  if n % U64 < 2 ^ 63 then ((n % U64 : Nat) : Int) else ((n % U64 : Nat) : Int) - (U64 : Int)

/-! ## std::stoi and std::stoull

The two library functions `parseArgs` calls, after the C++ standard: both skip
leading white space, accept one optional sign, read the longest run of decimal
digits and ignore what follows; they throw `std::invalid_argument` when there
is no digit and `std::out_of_range` when the value does not fit. `strtoull`
negates a value that carries a minus sign inside the unsigned type. `none`
stands for either exception. -/

/-- The white-space characters of the C locale (`isspace`). -/
def isSpaceC (c : Char) : Bool := c.toNat = 32 || (9 ≤ c.toNat && c.toNat ≤ 13)

/-- Value of a run of decimal digits. -/
def decValue (ds : List Char) : Nat := ds.foldl (fun v c => 10 * v + (c.toNat - 48)) 0

/-- The sign and the magnitude at the start of a string, `none` when no digit is there. -/
def scanNumeral (s : String) : Option (Bool × Nat) :=
  let cs := s.toList.dropWhile isSpaceC
  let signed : Bool × List Char :=
    match cs with
    | '-' :: r => (true, r)
    | '+' :: r => (false, r)
    | r => (false, r)
  let ds := signed.2.takeWhile Char.isDigit
  if ds.isEmpty then none else some (signed.1, decValue ds)

/-- The library function `std::stoi(s)`. -/
def stoi (s : String) : Option Int :=
  match scanNumeral s with
  | none => none
  | some (neg, v) =>
    let x : Int := if neg then -(v : Int) else (v : Int)
    if -(2 ^ 31 : Int) ≤ x ∧ x < (2 ^ 31 : Int) then some x else none

/-- The library function `std::stoull(s)`. -/
def stoull (s : String) : Option Nat :=
  match scanNumeral s with
  | none => none
  | some (neg, v) =>
    if U64 ≤ v then none
    else some (if neg then (U64 - v) % U64 else v)

/-! ## parseArgs (common.cpp, lines 25 to 71) -/

/-- The three ways `parseArgs` ends: it returns the structure, it throws
`std::runtime_error` (or a conversion function throws), or it prints the usage
text and calls `std::exit(0)`. -/
inductive Parsed where
  | returned (a : Args)
  | threw (msg : String)
  | exited
  deriving DecidableEq, Repr

/-- The loop `for (int i = 1; i < argc; i++)` of `parseArgs`, on the arguments
not yet read. The lambda `needValue` is the inner `match`: it throws when no
argument follows and otherwise consumes the next one. -/
def parseLoop (a : Args) : List String → Parsed
  | [] => Parsed.returned a
  | s :: rest =>
    if s = "--in" then
      match rest with
      | [] => Parsed.threw "Missing value for --in"
      | v :: r => parseLoop { a with inPath := v } r
    else if s = "--out" then
      match rest with
      | [] => Parsed.threw "Missing value for --out"
      | v :: r => parseLoop { a with outPath := v } r
    else if s = "--mode" then
      match rest with
      | [] => Parsed.threw "Missing value for --mode"
      | m :: r =>
        if m = "enc" then parseLoop { a with mode := Mode.Encrypt } r
        else if m = "dec" then parseLoop { a with mode := Mode.Decrypt } r
        else Parsed.threw "Invalid --mode (use enc or dec)"
    else if s = "--key" then
      match rest with
      | [] => Parsed.threw "Missing value for --key"
      | v :: r =>
        match stoi v with
        | none => Parsed.threw "stoi"
        | some k => parseLoop { a with key := k } r
    else if s = "--chunk" then
      match rest with
      | [] => Parsed.threw "Missing value for --chunk"
      | v :: r =>
        match stoull v with
        | none => Parsed.threw "stoull"
        | some c => parseLoop { a with chunkSize := c % U64 } r
    else if s = "--threads" then
      match rest with
      | [] => Parsed.threw "Missing value for --threads"
      | v :: r =>
        match stoi v with
        | none => Parsed.threw "stoi"
        | some t => parseLoop { a with threads := t } r
    else if s = "--help" ∨ s = "-h" then Parsed.exited
    else Parsed.threw ("Unknown option: " ++ s)

/-- The checks of `parseArgs` behind the loop. -/
def checkArgs (a : Args) : Parsed :=
  if a.inPath = "" ∨ a.outPath = "" then Parsed.threw "You must provide --in and --out"
  else if a.chunkSize = 0 then Parsed.threw "--chunk must be > 0"
  else Parsed.returned a

/-- The function `parseArgs(argc, argv)`; `argv` holds the program name first. -/
def parseArgs (argv : List String) : Parsed :=
  match parseLoop {} (argv.drop 1) with
  | Parsed.returned a => checkArgs a
  | Parsed.threw msg => Parsed.threw msg
  | Parsed.exited => Parsed.exited

/-- The options of the usage text that take a value. -/
def valueOptions : List String := ["--in", "--out", "--mode", "--key", "--chunk", "--threads"]

/-- Specification side: the arguments behind the program name are a sequence of
pairs `option value` in which every option is one of `valueOptions` and
the value of every `--mode` is `enc` or `dec`. It is false as soon as an unknown
option stands at an option position, an option is the last argument without a
value, or a mode is neither `enc` nor `dec`. -/
def wellFormedPairs : List String → Bool
  | [] => true
  | [_] => false
  | o :: v :: rest =>
    decide (o ∈ valueOptions) && (decide (o ≠ "--mode") || decide (v = "enc") || decide (v = "dec"))
      && wellFormedPairs rest

/-! ## transformBuffer (common.cpp, lines 86 to 121) -/

/-- The first two statements of `transformBuffer`:
`int k = key % 256; if (k < 0) k += 256;`. -/
def normKey (key : Int) : Int :=
  let k := Int.tmod key 256
  if k < 0 then k + 256 else k

/-- The busy loop `volatile int heavy = 0; for (j = 0; j < 50; j++) heavy += (data[i] * j) ^ k;`
run on the byte value `d`. The sum stays below `50 * 2 ^ 14`, so it never leaves `int`. -/
def heavyLoop (d : Nat) (k : Int) : Int :=
  (List.range 50).foldl (fun heavy j => heavy + Int.xor ((d : Int) * (j : Int)) k) 0

/-- One iteration of the byte loop of `transformBuffer`: the final value of the
local `heavy` and the buffer after the assignment to `data[i]`. -/
def byteIter (k : Int) (mode : Mode) (data : List Nat) (i : Nat) : Int × List Nat :=
  let d := data.getD i 0
  let heavy := heavyLoop d k
  match mode with
  | Mode.Encrypt => (heavy, data.set i (toUChar ((d : Int) + k)))
  | Mode.Decrypt => (heavy, data.set i (toUChar ((d : Int) - k)))

/-- The function `transformBuffer(data, n, key, mode)`: the loop
`for (long long i = 0; i < (long long)n; i++)` over the buffer. The iterations
touch pairwise different bytes, so the order in which the OpenMP team runs them
is immaterial and they are run in index order. -/
def transformBuffer (data : List Nat) (n : Nat) (key : Int) (mode : Mode) : List Nat :=
  let k := normKey key
  (List.range (toLongLong n).toNat).foldl (fun d i => (byteIter k mode d i).2) data

/-- The byte an iteration writes, as a function of the byte it reads. -/
def shiftByte (k : Int) (mode : Mode) (d : Nat) : Nat :=
  match mode with
  | Mode.Encrypt => toUChar ((d : Int) + k)
  | Mode.Decrypt => toUChar ((d : Int) - k)

/-! ## The operating system, as far as the programs see it -/

/-- What the storage device and the stream library do with a read or write.
`rdCap off` (`wrCap off`) is the largest number of bytes the device moves in a
read (a write) positioned at offset `off`; a transfer that asks for more moves
only that many bytes and is reported as failed. `buffered n` says whether
`out.write` of `n` bytes only copies them into the buffer of the stream, to be
written to the file by the next `seekp` or when the stream is closed
(`true`), or writes them to the file at once (`false`). -/
structure Device where
  rdCap : Nat → Nat
  wrCap : Nat → Nat
  buffered : Nat → Bool

/-- The device on which every read and write moves all the bytes asked for,
under the stream library with the buffering policy `b`. -/
def Device.reliableWith (b : Nat → Bool) : Device where
  rdCap := fun _ => U64
  wrCap := fun _ => U64
  buffered := b

/-- The reliable device under the policy of libstdc++, which buffers a write
of fewer than 1024 bytes. -/
def Device.reliable : Device := Device.reliableWith (fun n => decide (n < 1024))

/-- The answers of the operating system to the calls of the `main` functions
before the chunk loop. -/
structure Env where
  /-- Result of `std::filesystem::file_size(inPath, ec)`, `none` when `ec` is set. -/
  fileSize : Option Nat
  /-- Whether `std::ofstream out(outPath, binary | trunc)` opens. -/
  createOk : Bool
  /-- Whether the last byte written in `prepareOutputFile` reaches the file when
  the stream is closed. -/
  extendOk : Bool
  /-- The bytes a `std::ifstream` opened on `inPath` reads, `none` when it does not open. -/
  input : Option (List Nat)
  /-- Whether `std::fstream out(outPath, binary | in | out)` opens. -/
  reopenOk : Bool
  /-- Whether the allocator provides `n` bytes; `buf.resize(n)` throws
  `std::bad_alloc` otherwise. -/
  allocOk : Nat → Bool
  /-- The device behind both files. -/
  dev : Device

/-- How a process ends: `exit c` is a return from `main` (or `std::exit`) with
status `c`, `abort c` a call of `MPI_Abort(MPI_COMM_WORLD, c)`, which ends
every process of the group, and `hang` a loop that does not end. -/
inductive Status where
  | exit (code : Nat)
  | abort (code : Nat)
  | hang
  deriving DecidableEq, Repr

/-- The end of a program run: the status and the output file left on disk
(`none` when the program never created it). After `MPI_Abort` the file lacks
the bytes still held in the buffer of a stream. -/
structure Outcome where
  status : Status
  file : Option (List Nat)
  deriving DecidableEq, Repr

/-! ## File helpers (common.cpp, lines 76 to 81 and 136 to 148) -/

/-- The function `fileSizeBytes(path)`; `none` stands for the exception. -/
def fileSizeBytes (E : Env) : Option Nat := E.fileSize.map (fun sz => sz % U64)

/-- Largest size `buf.resize` accepts: `std::vector<unsigned char>::max_size()`
is at most the largest `std::ptrdiff_t`, and `resize` throws
`std::length_error` above it. -/
def vectorMaxSize : Nat := 2 ^ 63 - 1

/-- Whether `buf.resize(n)` returns instead of throwing `std::length_error` or
`std::bad_alloc`. -/
def resizeOk (E : Env) (n : Nat) : Bool := decide (n ≤ vectorMaxSize) && E.allocOk n

/-- The function `prepareOutputFile(outPath, size)`: the value returned and the
output file afterwards. The file is truncated on opening. For a positive size
the stream seeks to `size - 1` (as a `std::streamoff`, so the seek fails for a
value of `2 ^ 63` or more, the write then does nothing and `false` is
returned). Otherwise the one zero byte written stays in the buffer of the
stream, the stream is good when it is tested and `true` is returned; the byte
reaches the file, extending it with zero bytes, when the stream is closed on
return, and if that fails the file stays empty. -/
def prepareOutputFile (E : Env) (size : Nat) : Bool × Option (List Nat) :=
  if E.createOk = false then (false, none)
  else if size = 0 then (true, some [])
  else if toLongLong (sub64 size 1) < 0 then (false, some [])
  else (true, some (if E.extendOk = true then List.replicate size 0 else []))

/-! ## One chunk: seek, read, transform, seek, write -/

/-- The state of the two streams of one worker: whether `in` and `out` are in
a failed state (`!in`, `!out`; nothing in the programs clears that), and the
bytes of the last `out.write` that are still in the buffer of `out`, with the
file offset they belong to. -/
structure Streams where
  inFail : Bool
  outFail : Bool
  pending : Option (Nat × List Nat)
  deriving DecidableEq, Repr

/-- Content of a file after `data` is written at offset `off`: the bytes there
are replaced, and the file grows (zero filled) when the write ends behind its end. -/
def writeAt (file : List Nat) (off : Nat) (data : List Nat) : List Nat :=
  file.take off ++ List.replicate (off - file.length) 0 ++ data
    ++ file.drop (off + data.length)

/-- The statements `in.seekg(off); in.read(buf, n);`: the failed bit of `in` and
the buffer afterwards. A failed stream stays failed and reads nothing; a seek
to a negative `std::streamoff` fails; a read that extracts fewer than `n` bytes
stores them at the start of the buffer and sets the failed bit. -/
def readChunk (D : Device) (inp : List Nat) (fail : Bool) (off n : Nat) (buf : List Nat) :
    Bool × List Nat :=
  if fail = true ∨ toLongLong off < 0 then (true, buf)
  else
    let data := (inp.drop off).take (min n (D.rdCap off))
    (decide (data.length < n), data ++ buf.drop data.length)

/-- The device writes `data` at offset `off`: whether fewer bytes than given
were written, and the file afterwards. -/
def deviceWrite (D : Device) (file : List Nat) (off : Nat) (data : List Nat) :
    Bool × List Nat :=
  let put := data.take (D.wrCap off)
  (decide (put.length < data.length), writeAt file off put)

/-- The bytes in the buffer of `out` are written to the file: the failed bit of
`out`, set when the device does not take them all, and the file afterwards. -/
def flushOut (D : Device) (s : Streams) (file : List Nat) : Bool × List Nat :=
  match s.pending with
  | none => (s.outFail, file)
  | some (off, data) =>
    let w := deviceWrite D file off data
    (s.outFail || w.1, w.2)

/-- The output file after the streams of a worker are closed (their
destructors run on a return from the block that declares them): the bytes in
the buffer of `out` are written, and a failure goes unnoticed. -/
def closeOut (D : Device) (s : Streams) (file : List Nat) : List Nat :=
  (flushOut D s file).2

/-- The statements `out.seekp(off); out.write(buf, n);`: the failed bit of
`out`, the bytes left in its buffer and the output file afterwards. A failed
stream does nothing. Otherwise `seekp` first writes the buffered bytes to the
file and fails when that fails or when the offset is negative as a
`std::streamoff`; after a failed `seekp` the write does nothing. The write
itself either leaves its `n` bytes in the buffer, which cannot fail, or hands
them to the device and fails when the device takes fewer. -/
def writeChunk (D : Device) (file : List Nat) (s : Streams) (off n : Nat) (buf : List Nat) :
    Bool × Option (Nat × List Nat) × List Nat :=
  if s.outFail = true then (true, s.pending, file)
  else
    let f := flushOut D s file
    if f.1 = true ∨ toLongLong off < 0 then (true, none, f.2)
    else if D.buffered n = true then (false, some (off, buf.take n), f.2)
    else
      let w := deviceWrite D f.2 off (buf.take n)
      (w.1, none, w.2)

/-- The body shared by the three chunk loops, behind the computation of
`offset` and `n`: read into `buf`, `transformBuffer(buf.data(), n, key, mode)`,
write. It gives the state of the streams, the buffer and the output file
afterwards. -/
def chunkStep (D : Device) (inp : List Nat) (key : Int) (mode : Mode) (off n : Nat)
    (s : Streams) (buf file : List Nat) : Streams × List Nat × List Nat :=
  let r := readChunk D inp s.inFail off n buf
  let buf2 := transformBuffer r.2 n key mode
  let w := writeChunk D file s off n buf2
  (⟨r.1, w.1, w.2.1⟩, buf2, w.2.2)

/-- The expression `(size + chunkSize - 1) / chunkSize` in 64-bit unsigned arithmetic. -/
def numChunks (size chunkSize : Nat) : Nat := sub64 (add64 size chunkSize) 1 / chunkSize

/-- The expression `i * chunkSize` in 64-bit unsigned arithmetic. -/
def chunkOffset (i chunkSize : Nat) : Nat := mul64 i chunkSize

/-- The expression `std::min<std::uint64_t>(chunkSize, size - offset)`. -/
def chunkLen (size chunkSize offset : Nat) : Nat := min chunkSize (sub64 size offset)

/-- Specification side: position `p` lies in the byte range of chunk `i`. -/
def inChunk (size chunkSize i p : Nat) : Prop :=
  chunkOffset i chunkSize ≤ p ∧
    p < chunkOffset i chunkSize + chunkLen size chunkSize (chunkOffset i chunkSize)

instance (size chunkSize i p : Nat) : Decidable (inChunk size chunkSize i p) := by
  unfold inChunk
  exact inferInstance

/-- Body of the loops that allocate a fresh buffer per chunk
(`std::vector<unsigned char> buf(n)`, in the OpenMP and MPI programs). -/
def freshStep (D : Device) (inp : List Nat) (size chunkSize : Nat) (key : Int) (mode : Mode)
    (st : Streams × List Nat) (i : Nat) : Streams × List Nat :=
  let offset := chunkOffset i chunkSize
  let n := chunkLen size chunkSize offset
  let r := chunkStep D inp key mode offset n st.1 (List.replicate n 0) st.2
  (r.1, r.2.2)

/-! ## encrypt_serial.cpp -/

namespace Serial

/-- Body of the loop of the sequential program: the buffer `buf` outlives the iteration. -/
def step (D : Device) (inp : List Nat) (size chunkSize : Nat) (key : Int) (mode : Mode)
    (st : Streams × List Nat × List Nat) (i : Nat) : Streams × List Nat × List Nat :=
  let offset := chunkOffset i chunkSize
  let n := chunkLen size chunkSize offset
  chunkStep D inp key mode offset n st.1 st.2.1 st.2.2

/-- The loop `for (std::uint64_t i = 0; i < numChunks; i++)` of the sequential
program, started with the streams `s`, the buffer of `chunkSize` zero bytes
left by `buf.resize` and the output file `file`. -/
def loop (D : Device) (inp : List Nat) (size chunkSize : Nat) (key : Int) (mode : Mode)
    (s : Streams) (file : List Nat) : Streams × List Nat × List Nat :=
  (List.range (numChunks size chunkSize)).foldl (step D inp size chunkSize key mode)
    (s, List.replicate chunkSize 0, file)

/-- The output file after the loop of the sequential program and the closing
of its streams. -/
def run (D : Device) (inp : List Nat) (size chunkSize : Nat) (key : Int) (mode : Mode)
    (s : Streams) (file : List Nat) : List Nat :=
  closeOut D (loop D inp size chunkSize key mode s file).1
    (loop D inp size chunkSize key mode s file).2.2

/-- The function `main` of encrypt_serial.cpp behind `parseArgs`. -/
def job (E : Env) (a : Args) : Outcome :=
  match fileSizeBytes E with
  | none => ⟨Status.exit 1, none⟩
  | some size =>
    match prepareOutputFile E size with
    | (false, f) => ⟨Status.exit 1, f⟩
    | (true, none) => ⟨Status.exit 1, none⟩
    | (true, some file) =>
      match E.input with
      | none => ⟨Status.exit 1, some file⟩
      | some inp =>
        if E.reopenOk = false then ⟨Status.exit 1, some file⟩
        else if resizeOk E a.chunkSize = false then ⟨Status.exit 1, some file⟩
        else
          ⟨Status.exit 0,
            some (run E.dev inp size a.chunkSize a.key a.mode ⟨false, false, none⟩ file)⟩

/-- The function `main` of encrypt_serial.cpp. -/
def main (E : Env) (argv : List String) : Outcome :=
  match parseArgs argv with
  | Parsed.returned a => job E a
  | Parsed.threw _ => ⟨Status.exit 1, none⟩
  | Parsed.exited => ⟨Status.exit 0, none⟩

end Serial

/-! ## encrypt_openmp.cpp -/

namespace OpenMP

/-- The iteration space of `for (long long i = 0; i < (long long)numChunks; i++)`. -/
def indices (size chunkSize : Nat) : List Nat :=
  List.range (toLongLong (numChunks size chunkSize)).toNat

/-- One thread of the team: it opens its two streams (state `s`), runs the
loop body on the indices the static schedule gives it, in order, and closes
the streams at the end of the parallel region. -/
def thread (D : Device) (inp : List Nat) (size chunkSize : Nat) (key : Int) (mode : Mode)
    (s : Streams) (file : List Nat) (mine : List Nat) : List Nat :=
  closeOut D (mine.foldl (freshStep D inp size chunkSize key mode) (s, file)).1
    (mine.foldl (freshStep D inp size chunkSize key mode) (s, file)).2

/-- The parallel region: `asg` lists, thread by thread, the indices given to
the thread. The threads are run one after the other in the order of `asg`. -/
def run (D : Device) (inp : List Nat) (size chunkSize : Nat) (key : Int) (mode : Mode)
    (s : Streams) (file : List Nat) (asg : List (List Nat)) : List Nat :=
  asg.foldl (thread D inp size chunkSize key mode s) file

/-- The function `main` of encrypt_openmp.cpp behind `parseArgs`. The streams
of the threads are never tested. -/
def job (E : Env) (a : Args) (asg : List (List Nat)) : Outcome :=
  match fileSizeBytes E with
  | none => ⟨Status.exit 1, none⟩
  | some size =>
    match prepareOutputFile E size with
    | (false, f) => ⟨Status.exit 1, f⟩
    | (true, none) => ⟨Status.exit 1, none⟩
    | (true, some file) =>
      ⟨Status.exit 0,
        some (run E.dev (E.input.getD []) size a.chunkSize a.key a.mode
          ⟨E.input.isNone, !E.reopenOk, none⟩ file asg)⟩

/-- The function `main` of encrypt_openmp.cpp. -/
def main (E : Env) (argv : List String) (asg : List (List Nat)) : Outcome :=
  match parseArgs argv with
  | Parsed.returned a => job E a asg
  | Parsed.threw _ => ⟨Status.exit 1, none⟩
  | Parsed.exited => ⟨Status.exit 0, none⟩

end OpenMP

/-! ## encrypt_mpi.cpp -/

namespace MPI

/-- How the loop of a rank ends. -/
inductive LoopEnd (σ : Type) where
  | finished (s : σ)
  | aborted (s : σ)
  | unfinished
  deriving DecidableEq, Repr

/-- The loop `for (std::uint64_t i = rank; i < numChunks; i += nprocs)` with a
body that may call `MPI_Abort` (`none`, the loop then ends `aborted` in the
state reached); `fuel` bounds the number of iterations and `unfinished`
reports that it did not suffice. -/
def rankFor {σ : Type} (nprocs numCh : Nat) (body : Nat → σ → Option σ) :
    Nat → Nat → σ → LoopEnd σ
  | 0, i, s => if i < numCh then LoopEnd.unfinished else LoopEnd.finished s
  | fuel + 1, i, s =>
    if i < numCh then
      match body i s with
      | none => LoopEnd.aborted s
      | some s2 => rankFor nprocs numCh body fuel (add64 i nprocs) s2
    else LoopEnd.finished s

/-- The chunk indices the loop of rank `rank` visits, in order. -/
def rankIndices (rank nprocs numCh : Nat) : LoopEnd (List Nat) :=
  rankFor nprocs numCh (fun i visited => some (visited ++ [i])) numCh (rank % U64) []

/-- Body of the loop of a rank: `MPI_Abort` when a stream is in a failed state,
otherwise the chunk is processed with a fresh buffer. -/
def body (D : Device) (inp : List Nat) (size chunkSize : Nat) (key : Int) (mode : Mode)
    (i : Nat) (st : Streams × List Nat) : Option (Streams × List Nat) :=
  if st.1.inFail = true ∨ st.1.outFail = true then none
  else some (freshStep D inp size chunkSize key mode st i)

/-- The loop of rank `rank` in a group of `nprocs` processes, started with the
streams `s` and the output file `file`. -/
def rankLoop (D : Device) (inp : List Nat) (size chunkSize : Nat) (key : Int) (mode : Mode)
    (rank nprocs : Nat) (s : Streams) (file : List Nat) : LoopEnd (Streams × List Nat) :=
  rankFor nprocs (numChunks size chunkSize) (body D inp size chunkSize key mode)
    (numChunks size chunkSize) (rank % U64) (s, file)

/-- The loops of the ranks listed in `order`, run one after the other on the
shared output file, each rank closing its streams on its return from `main`;
`none` when one of them does not finish. -/
def run (D : Device) (inp : List Nat) (size chunkSize : Nat) (key : Int) (mode : Mode)
    (nprocs : Nat) (s : Streams) : List Nat → List Nat → Option (List Nat)
  | file, [] => some file
  | file, r :: rest =>
    match rankLoop D inp size chunkSize key mode r nprocs s file with
    | LoopEnd.finished st =>
      run D inp size chunkSize key mode nprocs s (closeOut D st.1 st.2) rest
    | LoopEnd.aborted _ => none
    | LoopEnd.unfinished => none

/-- The function `main` of encrypt_mpi.cpp behind `parseArgs`, for the process
of rank `rank`: rank 0 looks up the size and prepares the output file, every
rank receives the size (`MPI_Bcast`), returns at once for an empty file and
otherwise runs its loop. The file of the outcome holds the writes of this
rank; `MPI_Abort` ends the process without closing the streams, so the bytes
in the buffer of `out` are lost then. -/
def job (E : Env) (a : Args) (rank nprocs : Nat) : Outcome :=
  match fileSizeBytes E with
  | none => ⟨Status.abort 1, none⟩
  | some fsize =>
    match prepareOutputFile E fsize with
    | (false, f) => ⟨Status.abort 1, f⟩
    | (true, none) => ⟨Status.abort 1, none⟩
    | (true, some file) =>
      if fsize = 0 then ⟨Status.exit 0, some file⟩
      else
        match rankLoop E.dev (E.input.getD []) fsize a.chunkSize a.key a.mode rank nprocs
            ⟨E.input.isNone, !E.reopenOk, none⟩ file with
        | LoopEnd.finished st => ⟨Status.exit 0, some (closeOut E.dev st.1 st.2)⟩
        | LoopEnd.aborted st => ⟨Status.abort 1, some st.2⟩
        | LoopEnd.unfinished => ⟨Status.hang, some file⟩

/-- The function `main` of encrypt_mpi.cpp for the process of rank `rank`. -/
def main (E : Env) (argv : List String) (rank nprocs : Nat) : Outcome :=
  match parseArgs argv with
  | Parsed.returned a => job E a rank nprocs
  | Parsed.threw _ => ⟨Status.abort 1, none⟩
  | Parsed.exited => ⟨Status.exit 0, none⟩

end MPI

/-! ## Auxiliary definitions of the proofs -/

/-- Specification side: the indices `i, i + nprocs, i + 2 * nprocs, ...` below
`numCh`, in unbounded arithmetic, at most `fuel` of them. With `fuel = numCh`
and `i = r` this is the index set `r, r + P, r + 2P, ...` of rank `r`. -/
def strideFrom (nprocs numCh : Nat) : Nat → Nat → List Nat
  | 0, _ => []
  | fuel + 1, i => if i < numCh then i :: strideFrom nprocs numCh fuel (i + nprocs) else []

/-- A body that may abort, run on a list of indices. -/
def foldBody {σ : Type} (body : Nat → σ → Option σ) : List Nat → σ → MPI.LoopEnd σ
  | [], s => MPI.LoopEnd.finished s
  | i :: rest, s =>
    match body i s with
    | none => MPI.LoopEnd.aborted s
    | some s2 => foldBody body rest s2

/-- The output file has the size of the input and holds the transformed input
(`f` applied byte by byte) at every position whose chunk index is in `S`. -/
def Done (inp : List Nat) (f : Nat → Nat) (c : Nat) (S : Nat → Prop) (file : List Nat) : Prop :=
  file.length = inp.length ∧
    ∀ p, p < inp.length → S (p / c) → file[p]? = (inp.map f)[p]?

/-- Both streams of a worker are good and the bytes in the buffer of `out`, if
any, are few enough for a reliable device to take them in one write. -/
def Quiet (s : Streams) : Prop :=
  s.inFail = false ∧ s.outFail = false ∧
    ∀ off data, s.pending = some (off, data) → data.length ≤ U64

/-! ## Example environments -/

/-- The environment in which every call succeeds, the input file holds `inp`
and the device is reliable. -/
def Env.ideal (inp : List Nat) : Env where
  fileSize := some inp.length
  createOk := true
  extendOk := true
  input := some inp
  reopenOk := true
  allocOk := fun _ => true
  dev := Device.reliable

/-- As `Env.ideal`, on a device whose writes move no byte (every chunk write is
short), under the buffering policy of libstdc++. -/
def Env.writeFault (inp : List Nat) : Env where
  fileSize := some inp.length
  createOk := true
  extendOk := true
  input := some inp
  reopenOk := true
  allocOk := fun _ => true
  dev := { rdCap := fun _ => U64, wrCap := fun _ => 0, buffered := fun n => decide (n < 1024) }

/-! ## Lemmas on transformBuffer -/

theorem tmod_256 (key : Int) :
    Int.tmod key 256 = if 0 ≤ key then key % 256 else -((-key) % 256) := by
  cases key with
  | ofNat n =>
    have h : (0 : Int) ≤ Int.ofNat n := Int.ofNat_nonneg n
    rw [if_pos h]
    exact Int.tmod_eq_emod h (by norm_num)
  | negSucc n =>
    have h : ¬ (0 : Int) ≤ Int.negSucc n := by
      have := Int.negSucc_lt_zero n
      omega
    rw [if_neg h]
    show -Int.ofNat ((n + 1) % 256) = _
    rw [Int.neg_negSucc]
    simp

theorem normKey_eq_emod (key : Int) : normKey key = key % 256 := by
  unfold normKey
  simp only
  rw [tmod_256]
  split_ifs <;> omega

theorem byteIter_snd (k : Int) (mode : Mode) (data : List Nat) (i : Nat) :
    (byteIter k mode data i).2 = data.set i (shiftByte k mode (data.getD i 0)) := by
  cases mode <;> rfl

theorem foldl_set_eq (f : Nat → Nat) (m : Nat) (data : List Nat) (hm : m ≤ data.length) :
    (List.range m).foldl (fun d i => d.set i (f (d.getD i 0))) data
      = (data.take m).map f ++ data.drop m := by
  induction m with
  | zero => simp
  | succ m ih =>
    rw [List.range_succ, List.foldl_append, ih (by omega)]
    simp only [List.foldl_cons, List.foldl_nil]
    apply List.ext_getElem?
    intro j
    simp only [List.getElem?_set, List.getD_eq_getElem?_getD, List.getElem?_append,
      List.length_map, List.length_take, List.getElem?_map, List.getElem?_take,
      List.getElem?_drop, List.length_append, List.length_drop]
    have e1 : min m data.length = m := by omega
    have e2 : min (m + 1) data.length = m + 1 := by omega
    rw [e1, e2]
    by_cases hj : m = j
    · subst hj
      have hlt : m < data.length := by omega
      simp [hlt, List.getElem?_eq_getElem hlt]
    · by_cases hj2 : j < m
      · have : j < m + 1 := by omega
        simp [hj, hj2, this]
      · have h3 : ¬ j < m + 1 := by omega
        have h4 : m + (j - m) = m + 1 + (j - (m + 1)) := by omega
        simp [hj, hj2, h3, h4]

theorem toLongLong_of_lt (n : Nat) (h : n < 2 ^ 63) : toLongLong n = (n : Int) := by
  unfold toLongLong U64
  have : n % 2 ^ 64 = n := Nat.mod_eq_of_lt (by omega)
  rw [this, if_pos h]

theorem toLongLong_toNat_le (n : Nat) : (toLongLong n).toNat ≤ n := by
  unfold toLongLong U64
  have h1 : n % 2 ^ 64 ≤ n := Nat.mod_le _ _
  split_ifs <;> omega

/-- The effect of `transformBuffer` on a buffer that holds at least the bytes the loop visits. -/
theorem transformBuffer_eq_gen (data : List Nat) (n : Nat) (key : Int) (mode : Mode)
    (hn : (toLongLong n).toNat ≤ data.length) :
    transformBuffer data n key mode
      = (data.take (toLongLong n).toNat).map (shiftByte (normKey key) mode)
          ++ data.drop (toLongLong n).toNat := by
  unfold transformBuffer
  simp only [byteIter_snd]
  exact foldl_set_eq _ _ data hn

theorem transformBuffer_eq (data : List Nat) (n : Nat) (key : Int) (mode : Mode)
    (hn : n ≤ data.length) (h63 : n < 2 ^ 63) :
    transformBuffer data n key mode
      = (data.take n).map (shiftByte (normKey key) mode) ++ data.drop n := by
  have h := transformBuffer_eq_gen data n key mode
    (by rw [toLongLong_of_lt n h63]; simpa using hn)
  rw [toLongLong_of_lt n h63] at h
  simpa using h

theorem shiftByte_lt (k : Int) (mode : Mode) (d : Nat) : shiftByte k mode d < 256 := by
  cases mode <;> simp only [shiftByte, toUChar] <;> omega

theorem shiftByte_inverse (key : Int) (d : Nat) (hd : d < 256) :
    shiftByte (normKey key) Mode.Decrypt (shiftByte (normKey key) Mode.Encrypt d) = d := by
  simp only [shiftByte, toUChar, normKey_eq_emod]
  omega

theorem length_map_take_append_drop (f : Nat → Nat) (m : Nat) (B : List Nat)
    (hm : m ≤ B.length) : ((B.take m).map f ++ B.drop m).length = B.length := by
  simp only [List.length_append, List.length_map, List.length_take, List.length_drop]
  omega

theorem map_take_roundtrip (f g : Nat → Nat) (m : Nat) (B : List Nat) (hm : m ≤ B.length)
    (hfg : ∀ b ∈ B, g (f b) = b) :
    (((B.take m).map f ++ B.drop m).take m).map g ++ ((B.take m).map f ++ B.drop m).drop m
      = B := by
  have hl : ((B.take m).map f).length = m := by
    simp only [List.length_map, List.length_take]
    omega
  rw [List.take_left' hl, List.drop_left' hl, List.map_map]
  have hmap : List.map (g ∘ f) (List.take m B) = List.take m B := by
    conv_rhs => rw [← List.map_id (List.take m B)]
    apply List.map_congr_left
    intro b hb
    exact hfg b (List.mem_of_mem_take hb)
  rw [hmap, List.take_append_drop]

/-! ## C1 and C2: the transform -/

/-- C1. Invertibility of `transformBuffer`: for every buffer of bytes, whatever its
length, and every key, encrypting the whole buffer and then decrypting the result
with the same key gives the buffer back. -/
theorem transformBuffer_invertible (B : List Nat) (key : Int) (hB : ∀ b ∈ B, b < 256) :
    transformBuffer (transformBuffer B B.length key Mode.Encrypt) B.length key Mode.Decrypt
      = B := by
  have hm := toLongLong_toNat_le B.length
  rw [transformBuffer_eq_gen B B.length key Mode.Encrypt hm]
  have hlen := length_map_take_append_drop (shiftByte (normKey key) Mode.Encrypt) _ B hm
  rw [transformBuffer_eq_gen _ B.length key Mode.Decrypt (by rw [hlen]; exact hm)]
  exact map_take_roundtrip _ _ _ B hm (fun b hb => shiftByte_inverse key b (hB b hb))

/-- Witness of C1 on the buffer of the specification scenario. -/
theorem transformBuffer_invertible_witness :
    transformBuffer
        (transformBuffer [10, 20, 30, 40, 50, 60, 70, 80, 90, 100] 10 3 Mode.Encrypt)
        10 3 Mode.Decrypt
      = [10, 20, 30, 40, 50, 60, 70, 80, 90, 100] :=
  transformBuffer_invertible [10, 20, 30, 40, 50, 60, 70, 80, 90, 100] 3 (by decide)

/-- C2. `transformBuffer` is a shift byte by byte: the key is normalised to
`key mod 256` in `[0, 255]` (also when it is negative), the buffer keeps its
length, and the byte at position `p` becomes `(B[p] + k) mod 256` on encryption
and `(B[p] - k) mod 256` on decryption, where `k` is the normalised key. The
value computed by the busy loop does not enter the result. -/
theorem transformBuffer_shift (B : List Nat) (key : Int) (mode : Mode)
    (hlen : B.length < 2 ^ 63) :
    normKey key = key % 256 ∧ 0 ≤ normKey key ∧ normKey key < 256 ∧
    (transformBuffer B B.length key mode).length = B.length ∧
    (∀ p, p < B.length →
      (((transformBuffer B B.length key mode).getD p 0 : Nat) : Int)
        = match mode with
          | Mode.Encrypt => ((B.getD p 0 : Nat) + key % 256) % 256
          | Mode.Decrypt => ((B.getD p 0 : Nat) - key % 256) % 256) ∧
    (∀ (data : List Nat) (i : Nat),
      (byteIter (normKey key) mode data i).2
        = data.set i (shiftByte (normKey key) mode (data.getD i 0))) := by
  have hk := normKey_eq_emod key
  refine ⟨hk, by omega, by omega, ?_, ?_, fun data i => byteIter_snd _ _ _ _⟩
  · rw [transformBuffer_eq B B.length key mode le_rfl hlen]
    simp
  · intro p hp
    rw [transformBuffer_eq B B.length key mode le_rfl hlen]
    simp only [List.take_length, List.drop_length, List.append_nil,
      List.getD_eq_getElem?_getD, List.getElem?_map, List.getElem?_eq_getElem hp,
      Option.map_some', Option.getD_some]
    rw [hk]
    cases mode <;> simp only [shiftByte, toUChar] <;> omega

/-- Witness of C2: the scenario of the specification, ten bytes and key 3. -/
theorem transformBuffer_shift_witness :
    transformBuffer [10, 20, 30, 40, 50, 60, 70, 80, 90, 100] 10 3 Mode.Encrypt
        = [13, 23, 33, 43, 53, 63, 73, 83, 93, 103] ∧
    (transformBuffer [10, 20, 30, 40, 50, 60, 70, 80, 90, 100] 10 3 Mode.Encrypt).length = 10 :=
  ⟨by decide,
    (transformBuffer_shift [10, 20, 30, 40, 50, 60, 70, 80, 90, 100] 3 Mode.Encrypt
      (by decide)).2.2.2.1⟩

/-! ## Chunk arithmetic -/

theorem numChunks_of_no_overflow (size c : Nat) (hc : 0 < c) (hno : size + c - 1 < U64) :
    numChunks size c = (size + c - 1) / c := by
  have h : sub64 (add64 size c) 1 = size + c - 1 := by
    unfold sub64 add64 U64 at *
    omega
  unfold numChunks
  rw [h]

theorem numChunks_of_overflow (size c : Nat) (hs : size < U64) (hc : c < U64)
    (hov : U64 ≤ size + c - 1) : numChunks size c = 0 := by
  have h : sub64 (add64 size c) 1 < c := by
    unfold sub64 add64 U64 at *
    omega
  unfold numChunks
  exact Nat.div_eq_of_lt h

/-- Either the ceiling division does not wrap around, or no chunk is counted at all. -/
theorem numChunks_cases (size c : Nat) (hs : size < U64) (hc : c < U64) :
    size + c - 1 < U64 ∨ numChunks size c = 0 := by
  by_cases h : size + c - 1 < U64
  · exact Or.inl h
  · exact Or.inr (numChunks_of_overflow size c hs hc (by omega))

theorem ceil_mul_ge (size c : Nat) (hc : 0 < c) : size ≤ (size + c - 1) / c * c := by
  have h := Nat.lt_div_mul_add (a := size + c - 1) hc
  omega

theorem ceil_mul_le (size c : Nat) : (size + c - 1) / c * c ≤ size + c - 1 :=
  Nat.div_mul_le_self _ _

/-- The facts about one chunk index below `numChunks`, in unbounded arithmetic. -/
theorem chunk_bounds (size c i : Nat) (hc : 0 < c) (hi : i < (size + c - 1) / c) :
    i * c + 1 ≤ size ∧ (i + 1 < (size + c - 1) / c → i * c + c + 1 ≤ size) ∧
      (i + 1 = (size + c - 1) / c → size ≤ i * c + c) := by
  have h1 := ceil_mul_le size c
  have h2 := ceil_mul_ge size c hc
  have h3 : (i + 1) * c ≤ (size + c - 1) / c * c := Nat.mul_le_mul_right c hi
  have h4 : (i + 1) * c = i * c + c := Nat.succ_mul i c
  refine ⟨by omega, ?_, ?_⟩
  · intro h
    have h5 : (i + 2) * c ≤ (size + c - 1) / c * c := Nat.mul_le_mul_right c h
    have h6 : (i + 2) * c = i * c + c + c := by ring
    omega
  · intro h
    rw [← h] at h2
    omega

theorem chunkOffset_eq (size c i : Nat) (hc : 0 < c) (hs : size < U64)
    (hi : i < (size + c - 1) / c) : chunkOffset i c = i * c := by
  have h := (chunk_bounds size c i hc hi).1
  unfold chunkOffset mul64
  exact Nat.mod_eq_of_lt (by omega)

theorem sub64_eq (a b : Nat) (ha : a < U64) (hb : b ≤ a) : sub64 a b = a - b := by
  unfold sub64
  unfold U64 at *
  omega

theorem chunkLen_eq (size c i : Nat) (hc : 0 < c) (hs : size < U64)
    (hi : i < (size + c - 1) / c) :
    chunkLen size c (i * c) = min c (size - i * c) := by
  have h := (chunk_bounds size c i hc hi).1
  unfold chunkLen
  rw [sub64_eq size (i * c) hs (by omega)]

/-- Position `p` lies in chunk `i` exactly when `i` is the quotient of `p` by the chunk size. -/
theorem in_range_iff_div (size c i p : Nat) (hc : 0 < c) (hi : i < (size + c - 1) / c) :
    (i * c ≤ p ∧ p < i * c + min c (size - i * c)) ↔ (p < size ∧ p / c = i) := by
  have hb := chunk_bounds size c i hc hi
  constructor
  · rintro ⟨h1, h2⟩
    refine ⟨by omega, ?_⟩
    apply Nat.div_eq_of_lt_le
    · exact h1
    · rw [Nat.succ_mul]
      omega
  · rintro ⟨h1, h2⟩
    have h3 : p / c * c ≤ p := Nat.div_mul_le_self p c
    have h4 : p < p / c * c + c := Nat.lt_div_mul_add hc
    rw [h2] at h3 h4
    omega

theorem div_lt_numChunks (size c p : Nat) (hc : 0 < c) (hp : p < size) :
    p / c < (size + c - 1) / c := by
  rw [Nat.div_lt_iff_lt_mul hc]
  have := ceil_mul_ge size c hc
  omega

/-! ## C10: chunk arithmetic stays in range -/

/-- C10. Chunk arithmetic stays in range: when `fileSize + chunkSize - 1` does not
exceed `2 ^ 64 - 1`, `numChunks` is the ceiling of `fileSize / chunkSize`, and for
every index `i < numChunks` the product `i * chunkSize` does not overflow and is
below `fileSize` (so `fileSize - offset` does not wrap), the chunk length `n`
satisfies `1 ≤ n ≤ chunkSize`, and `offset + n ≤ fileSize`, with equality for
the last chunk. -/
theorem chunk_arithmetic_in_range (size c i : Nat) (hs : size < U64)
    (hc : 0 < c) (hno : size + c - 1 ≤ 2 ^ 64 - 1) (hi : i < numChunks size c) :
    numChunks size c = (size + c - 1) / c ∧
    i * c < U64 ∧ chunkOffset i c = i * c ∧ i * c < size ∧
    sub64 size (chunkOffset i c) = size - i * c ∧
    1 ≤ chunkLen size c (chunkOffset i c) ∧
    chunkLen size c (chunkOffset i c) ≤ c ∧
    chunkOffset i c + chunkLen size c (chunkOffset i c) ≤ size ∧
    (i + 1 = numChunks size c →
      chunkOffset i c + chunkLen size c (chunkOffset i c) = size) := by
  have hno2 : size + c - 1 < U64 := by unfold U64; omega
  have hN := numChunks_of_no_overflow size c hc hno2
  rw [hN] at hi
  have hb := chunk_bounds size c i hc hi
  have hoff := chunkOffset_eq size c i hc hs hi
  have hlen := chunkLen_eq size c i hc hs hi
  rw [hN, hoff, hlen, sub64_eq size (i * c) hs (by omega)]
  refine ⟨rfl, by omega, rfl, by omega, rfl, by omega, by omega, by omega, ?_⟩
  intro h
  have := hb.2.2 h
  omega

/-- Witness of C10: ten bytes in chunks of four, last chunk. -/
theorem chunk_arithmetic_in_range_witness :
    numChunks 10 4 = (10 + 4 - 1) / 4 ∧
    2 * 4 < U64 ∧ chunkOffset 2 4 = 2 * 4 ∧ 2 * 4 < 10 ∧
    sub64 10 (chunkOffset 2 4) = 10 - 2 * 4 ∧
    1 ≤ chunkLen 10 4 (chunkOffset 2 4) ∧
    chunkLen 10 4 (chunkOffset 2 4) ≤ 4 ∧
    chunkOffset 2 4 + chunkLen 10 4 (chunkOffset 2 4) ≤ 10 ∧
    (2 + 1 = numChunks 10 4 → chunkOffset 2 4 + chunkLen 10 4 (chunkOffset 2 4) = 10) :=
  chunk_arithmetic_in_range 10 4 2 (by decide) (by decide) (by decide) (by decide)

/-! ## C3: partition completeness -/

/-- Without wrap-around of the ceiling division the chunk ranges partition
`[0, size)`: every position below `size` lies in the chunk numbered by its
quotient, and in no other. -/
theorem partition_of_no_overflow (size c : Nat) (hs : size < U64) (hc : 0 < c)
    (hno : size + c - 1 < U64) (p : Nat) :
    (p < size ↔ ∃ i, i < numChunks size c ∧ inChunk size c i p) ∧
    (∀ i, i < numChunks size c → (inChunk size c i p ↔ (p < size ∧ p / c = i))) := by
  have hN := numChunks_of_no_overflow size c hc hno
  have key : ∀ i, i < numChunks size c → (inChunk size c i p ↔ (p < size ∧ p / c = i)) := by
    intro i hi
    rw [hN] at hi
    unfold inChunk
    rw [chunkOffset_eq size c i hc hs hi, chunkLen_eq size c i hc hs hi]
    exact in_range_iff_div size c i p hc hi
  refine ⟨⟨fun hp => ?_, ?_⟩, key⟩
  · have hq : p / c < numChunks size c := by
      rw [hN]
      exact div_lt_numChunks size c p hc hp
    exact ⟨p / c, hq, (key _ hq).2 ⟨hp, rfl⟩⟩
  · rintro ⟨i, hi, h⟩
    exact ((key i hi).1 h).1

/-- C3, at the failing input: a file of 10 bytes and the chunk size `2 ^ 64 - 1`,
which `parseArgs` accepts. The sum `size + chunkSize - 1` wraps around to 8, the
division counts no chunk, and byte 0 of the file lies in no chunk range. -/
theorem partition_overflow_failure :
    parseArgs ["prog", "--in", "a", "--out", "b", "--chunk", "18446744073709551615"]
      = Parsed.returned
          { inPath := "a", outPath := "b", chunkSize := 18446744073709551615 } ∧
    sub64 (add64 10 18446744073709551615) 1 = 8 ∧
    numChunks 10 18446744073709551615 = 0 ∧
    (10 + 18446744073709551615 - 1) / 18446744073709551615 = 1 ∧
    ¬ ∃ i, i < numChunks 10 18446744073709551615 ∧ inChunk 10 18446744073709551615 i 0 := by
  refine ⟨by decide, by decide, by decide, by decide, ?_⟩
  rintro ⟨i, hi, _⟩
  have h : numChunks 10 18446744073709551615 = 0 := by decide
  omega

/-! ## The loop of a rank -/

theorem mod_eq_lt_add_le (i j P : Nat) (hij : i < j) (hmod : j % P = i % P) :
    i + P ≤ j := by
  have h0 : (j - i) % P = 0 := Nat.sub_mod_eq_zero_of_mod_eq hmod
  have h1 : P ∣ j - i := Nat.dvd_of_mod_eq_zero h0
  have h2 : P ≤ j - i := Nat.le_of_dvd (by omega) h1
  omega

theorem mem_strideFrom (P N : Nat) (hP : 0 < P) :
    ∀ (fuel i : Nat), N ≤ i + fuel →
      ∀ j, j ∈ strideFrom P N fuel i ↔ (i ≤ j ∧ j < N ∧ j % P = i % P) := by
  intro fuel
  induction fuel with
  | zero =>
    intro i h j
    simp only [strideFrom, List.not_mem_nil, false_iff]
    omega
  | succ fuel ih =>
    intro i h j
    unfold strideFrom
    split_ifs with hi
    · rw [List.mem_cons, ih (i + P) (by omega) j]
      have e : (i + P) % P = i % P := Nat.add_mod_right i P
      rw [e]
      constructor
      · rintro (h1 | ⟨h1, h2, h3⟩)
        · subst h1
          exact ⟨le_rfl, hi, rfl⟩
        · exact ⟨by omega, h2, h3⟩
      · rintro ⟨h1, h2, h3⟩
        by_cases hji : j = i
        · exact Or.inl hji
        · exact Or.inr ⟨mod_eq_lt_add_le i j P (by omega) h3, h2, h3⟩
    · simp only [List.not_mem_nil, false_iff]
      omega

theorem strideFrom_lower (P N : Nat) :
    ∀ (fuel i j : Nat), j ∈ strideFrom P N fuel i → i ≤ j := by
  intro fuel
  induction fuel with
  | zero =>
    intro i j h
    simp [strideFrom] at h
  | succ fuel ih =>
    intro i j h
    unfold strideFrom at h
    split_ifs at h with hi
    · rcases List.mem_cons.1 h with h1 | h1
      · omega
      · have := ih (i + P) j h1
        omega
    · simp at h

theorem nodup_strideFrom (P N : Nat) (hP : 0 < P) :
    ∀ (fuel i : Nat), (strideFrom P N fuel i).Nodup := by
  intro fuel
  induction fuel with
  | zero => intro i; simp [strideFrom]
  | succ fuel ih =>
    intro i
    unfold strideFrom
    split_ifs with hi
    · refine List.nodup_cons.2 ⟨fun hmem => ?_, ih (i + P)⟩
      have := strideFrom_lower P N fuel (i + P) i hmem
      omega
    · exact List.nodup_nil

/-- Without wrap-around of `i += nprocs` and with enough fuel the loop of a
rank is the run of its body over the indices `i, i + nprocs, ...`. -/
theorem rankFor_eq_foldBody {σ : Type} (P N : Nat) (body : Nat → σ → Option σ)
    (hP : 1 ≤ P) (hb : N + P ≤ U64) :
    ∀ (fuel i : Nat) (s : σ), N ≤ i + fuel →
      MPI.rankFor P N body fuel i s = foldBody body (strideFrom P N fuel i) s := by
  intro fuel
  induction fuel with
  | zero =>
    intro i s h
    have : ¬ i < N := by omega
    simp [MPI.rankFor, strideFrom, foldBody, this]
  | succ fuel ih =>
    intro i s h
    by_cases hi : i < N
    · have e : add64 i P = i + P := by
        unfold add64
        exact Nat.mod_eq_of_lt (by omega)
      simp only [MPI.rankFor, strideFrom, if_pos hi, foldBody, e]
      cases hbody : body i s with
      | none => rfl
      | some s2 => exact ih (i + P) s2 (by omega)
    · simp only [MPI.rankFor, strideFrom, if_neg hi, foldBody]

theorem foldBody_log (L : List Nat) :
    ∀ acc : List Nat,
      foldBody (fun i visited => some (visited ++ [i])) L acc = MPI.LoopEnd.finished (acc ++ L) := by
  induction L with
  | nil => intro acc; simp [foldBody]
  | cons i L ih =>
    intro acc
    simp only [foldBody]
    rw [ih]
    simp

theorem rankIndices_eq (r P N : Nat) (hP : 1 ≤ P) (hb : N + P ≤ U64) (hr : r < P) :
    MPI.rankIndices r P N = MPI.LoopEnd.finished (strideFrom P N N r) := by
  have hr64 : r % U64 = r := Nat.mod_eq_of_lt (by omega)
  unfold MPI.rankIndices
  rw [hr64, rankFor_eq_foldBody P N _ hP hb N r [] (by omega), foldBody_log]
  simp

theorem mem_rank_stride (r P N : Nat) (hP : 1 ≤ P) (hr : r < P) (j : Nat) :
    j ∈ strideFrom P N N r ↔ (j < N ∧ j % P = r) := by
  rw [mem_strideFrom P N (by omega) N r (by omega) j, Nat.mod_eq_of_lt hr]
  constructor
  · rintro ⟨_, h2, h3⟩
    exact ⟨h2, h3⟩
  · rintro ⟨h2, h3⟩
    have : j % P ≤ j := Nat.mod_le j P
    exact ⟨by omega, h2, h3⟩

/-! ## C9: exclusive chunk ownership in the distributed back end -/

/-- C9. Exclusive chunk ownership: for every process count `P ≥ 1` and every
`numChunks`, the index sets `r, r + P, r + 2P, ...` (while below `numChunks`) of
the ranks `r < P` hold each index `j < numChunks` with `j mod P = r` once and
nothing else; so they are pairwise disjoint, their union is
`{0, ..., numChunks - 1}`, and index `i` belongs once to rank `i mod P` and to
no other rank. The loop of rank `r` in the program ends and visits exactly this
set, in this order, as long as `i += nprocs` cannot wrap around in 64 bits
(`numChunks + P ≤ 2 ^ 64`, which holds for every file, whose size is below
`2 ^ 63`, and every `int` process count). -/
theorem rank_ownership (P N : Nat) (hP : 1 ≤ P) :
    (∀ r, r < P → (strideFrom P N N r).Nodup ∧
      ∀ j, j ∈ strideFrom P N N r ↔ (j < N ∧ j % P = r)) ∧
    (∀ r1 r2, r1 < P → r2 < P → r1 ≠ r2 →
      List.Disjoint (strideFrom P N N r1) (strideFrom P N N r2)) ∧
    (∀ i, i < N → i % P < P ∧ (strideFrom P N N (i % P)).count i = 1) ∧
    (∀ i r, r < P → i ∈ strideFrom P N N r → i < N ∧ r = i % P) ∧
    (N + P ≤ U64 → ∀ r, r < P →
      MPI.rankIndices r P N = MPI.LoopEnd.finished (strideFrom P N N r)) := by
  refine ⟨?_, ?_, ?_, ?_, ?_⟩
  · intro r hr
    exact ⟨nodup_strideFrom P N (by omega) N r, mem_rank_stride r P N hP hr⟩
  · intro r1 r2 h1 h2 hne j hj1 hj2
    have a1 := (mem_rank_stride r1 P N hP h1 j).1 hj1
    have a2 := (mem_rank_stride r2 P N hP h2 j).1 hj2
    omega
  · intro i hi
    have hlt : i % P < P := Nat.mod_lt i (by omega)
    refine ⟨hlt, ?_⟩
    exact List.count_eq_one_of_mem (nodup_strideFrom P N (by omega) N (i % P))
      ((mem_rank_stride (i % P) P N hP hlt i).2 ⟨hi, rfl⟩)
  · intro i r hr hmem
    have a := (mem_rank_stride r P N hP hr i).1 hmem
    exact ⟨a.1, a.2.symm⟩
  · intro hb r hr
    exact rankIndices_eq r P N hP hb hr

/-- Witness of C9: three ranks and eight chunks. -/
theorem rank_ownership_witness :
    MPI.rankIndices 0 3 8 = MPI.LoopEnd.finished [0, 3, 6] ∧
    MPI.rankIndices 1 3 8 = MPI.LoopEnd.finished [1, 4, 7] ∧
    MPI.rankIndices 2 3 8 = MPI.LoopEnd.finished [2, 5] ∧
    MPI.rankIndices 1 3 8 = MPI.LoopEnd.finished (strideFrom 3 8 8 1) ∧
    ((strideFrom 3 8 8 1).Nodup ∧ ∀ j, j ∈ strideFrom 3 8 8 1 ↔ (j < 8 ∧ j % 3 = 1)) :=
  ⟨by decide, by decide, by decide,
    (rank_ownership 3 8 (by decide)).2.2.2.2 (by decide) 1 (by decide),
    (rank_ownership 3 8 (by decide)).1 1 (by decide)⟩

/-! ## One chunk on a reliable device -/

theorem length_writeAt (file data : List Nat) (off : Nat)
    (h : off + data.length ≤ file.length) : (writeAt file off data).length = file.length := by
  unfold writeAt
  simp only [List.length_append, List.length_take, List.length_replicate, List.length_drop]
  omega

theorem getElem?_writeAt (file data : List Nat) (off p : Nat)
    (h : off + data.length ≤ file.length) :
    (writeAt file off data)[p]?
      = if off ≤ p ∧ p < off + data.length then data[p - off]? else file[p]? := by
  unfold writeAt
  have e0 : off - file.length = 0 := by omega
  rw [e0, List.replicate_zero, List.append_nil]
  have e1 : (List.take off file).length = off := by
    rw [List.length_take]
    omega
  by_cases h1 : p < off
  · have hc : ¬ (off ≤ p ∧ p < off + data.length) := by omega
    rw [if_neg hc, List.append_assoc, List.getElem?_append_left (by omega)]
    rw [List.getElem?_take, if_pos h1]
  · by_cases h2 : p < off + data.length
    · have hc : off ≤ p ∧ p < off + data.length := by omega
      rw [if_pos hc, List.append_assoc, List.getElem?_append_right (by omega), e1]
      rw [List.getElem?_append_left (by omega)]
    · have hc : ¬ (off ≤ p ∧ p < off + data.length) := by omega
      rw [if_neg hc, List.getElem?_append_right (by simp only [List.length_append]; omega)]
      rw [List.getElem?_drop]
      congr 1
      simp only [List.length_append]
      omega

theorem toLongLong_nonneg_of_lt (n : Nat) (h : n < 2 ^ 63) : ¬ toLongLong n < 0 := by
  rw [toLongLong_of_lt n h]
  omega

theorem readChunk_good (b : Nat → Bool) (inp buf : List Nat) (off n : Nat)
    (hoff : off < 2 ^ 63) (hn : n ≤ U64) (hle : off + n ≤ inp.length) :
    readChunk (Device.reliableWith b) inp false off n buf
      = (false, (inp.drop off).take n ++ buf.drop n) := by
  have hseek := toLongLong_nonneg_of_lt off hoff
  have hmin : min n ((Device.reliableWith b).rdCap off) = n := by
    show min n U64 = n
    omega
  have hlen : ((inp.drop off).take n).length = n := by
    rw [List.length_take, List.length_drop]
    omega
  unfold readChunk
  rw [if_neg (by simp [hseek])]
  simp only [hmin, hlen, lt_self_iff_false, decide_False]

theorem deviceWrite_reliable (b : Nat → Bool) (file data : List Nat) (off : Nat)
    (h : data.length ≤ U64) :
    deviceWrite (Device.reliableWith b) file off data = (false, writeAt file off data) := by
  have htake : data.take ((Device.reliableWith b).wrCap off) = data := by
    show data.take U64 = data
    exact List.take_of_length_le h
  unfold deviceWrite
  simp only [htake, lt_self_iff_false, decide_False]

theorem closeOut_of_pending_none (D : Device) (s : Streams) (file : List Nat)
    (h : s.pending = none) : closeOut D s file = file := by
  unfold closeOut flushOut
  rw [h]

theorem flushOut_quiet (b : Nat → Bool) (s : Streams) (file : List Nat) (hq : Quiet s) :
    flushOut (Device.reliableWith b) s file
      = (false, closeOut (Device.reliableWith b) s file) := by
  obtain ⟨_, h2, h3⟩ := hq
  unfold closeOut flushOut
  cases hp : s.pending with
  | none => simp only [h2]
  | some od =>
    obtain ⟨o, d⟩ := od
    simp only [h2, deviceWrite_reliable b file d o (h3 o d hp), Bool.or_self]

/-- A write on a reliable device through a good stream: the stream stays good,
and once its buffer is written out the file holds the first `n` bytes of the
buffer at `off`. -/
theorem writeChunk_good (b : Nat → Bool) (file buf : List Nat) (s : Streams) (off n : Nat)
    (hq : Quiet s) (hoff : off < 2 ^ 63) (hn : n ≤ U64) (inFail : Bool) :
    (writeChunk (Device.reliableWith b) file s off n buf).1 = false ∧
    (∀ o d, (writeChunk (Device.reliableWith b) file s off n buf).2.1 = some (o, d) →
      d.length ≤ U64) ∧
    closeOut (Device.reliableWith b)
        ⟨inFail, (writeChunk (Device.reliableWith b) file s off n buf).1,
          (writeChunk (Device.reliableWith b) file s off n buf).2.1⟩
        (writeChunk (Device.reliableWith b) file s off n buf).2.2
      = writeAt (closeOut (Device.reliableWith b) s file) off (buf.take n) := by
  have hseek := toLongLong_nonneg_of_lt off hoff
  have hlen : (buf.take n).length ≤ U64 := by
    rw [List.length_take]
    omega
  have hw : writeChunk (Device.reliableWith b) file s off n buf
      = if b n = true then
          (false, some (off, buf.take n), closeOut (Device.reliableWith b) s file)
        else
          (false, none,
            writeAt (closeOut (Device.reliableWith b) s file) off (buf.take n)) := by
    unfold writeChunk
    rw [if_neg (by simp [hq.2.1]), flushOut_quiet b s file hq]
    simp only [Bool.false_eq_true, false_or, if_neg hseek]
    show (if b n = true then _ else _) = _
    split_ifs
    · rfl
    · rw [deviceWrite_reliable b _ _ _ hlen]
  rw [hw]
  by_cases hb : b n = true
  · simp only [if_pos hb]
    refine ⟨trivial, ?_, ?_⟩
    · intro o d h
      cases h
      exact hlen
    · unfold closeOut flushOut
      simp only [deviceWrite_reliable b _ _ _ hlen]
  · simp only [if_neg hb]
    refine ⟨trivial, ?_, ?_⟩
    · intro o d h
      cases h
    · exact closeOut_of_pending_none _ _ _ rfl

/-- One chunk on a reliable device with both streams good: the bytes
`[off, off + n)` of the input are read, shifted and written at `off`; the
streams stay good. -/
theorem chunkStep_good (b : Nat → Bool) (inp buf file : List Nat) (key : Int) (mode : Mode)
    (off n : Nat) (s : Streams) (hq : Quiet s)
    (hoff : off < 2 ^ 63) (hn : n < 2 ^ 63) (hle : off + n ≤ inp.length) :
    Quiet (chunkStep (Device.reliableWith b) inp key mode off n s buf file).1 ∧
    closeOut (Device.reliableWith b)
        (chunkStep (Device.reliableWith b) inp key mode off n s buf file).1
        (chunkStep (Device.reliableWith b) inp key mode off n s buf file).2.2
      = writeAt (closeOut (Device.reliableWith b) s file) off
          (((inp.drop off).take n).map (shiftByte (normKey key) mode)) := by
  have hn64 : n ≤ U64 := by unfold U64; omega
  have hlen : ((inp.drop off).take n).length = n := by
    rw [List.length_take, List.length_drop]
    omega
  have htr : transformBuffer ((inp.drop off).take n ++ buf.drop n) n key mode
      = ((inp.drop off).take n).map (shiftByte (normKey key) mode) ++ buf.drop n := by
    rw [transformBuffer_eq _ n key mode (by simp only [List.length_append, hlen]; omega) hn]
    rw [List.take_left' hlen, List.drop_left' hlen]
  have hlen2 : (((inp.drop off).take n).map (shiftByte (normKey key) mode)).length = n := by
    rw [List.length_map, hlen]
  have hin : s.inFail = false := hq.1
  obtain ⟨w1, w2, w3⟩ := writeChunk_good b file
    (((inp.drop off).take n).map (shiftByte (normKey key) mode) ++ buf.drop n) s off n hq
    hoff hn64 false
  rw [List.take_left' hlen2] at w3
  unfold chunkStep
  simp only [hin, readChunk_good b inp buf off n hoff hn64 hle, htr]
  exact ⟨⟨rfl, w1, w2⟩, w3⟩

/-- The bytes chunk `i` writes are those of the transformed input at the same positions. -/
theorem getElem?_chunk_data (inp : List Nat) (f : Nat → Nat) (off n p : Nat)
    (h1 : off ≤ p) (h2 : p < off + n) :
    (((inp.drop off).take n).map f)[p - off]? = (inp.map f)[p]? := by
  rw [List.getElem?_map, List.getElem?_map, List.getElem?_take, if_pos (by omega),
    List.getElem?_drop]
  congr 2
  omega

/-! ## The chunk loops on a reliable device -/

theorem done_mono (inp : List Nat) (f : Nat → Nat) (c : Nat) (S T : Nat → Prop)
    (file : List Nat) (h : Done inp f c S file) (hST : ∀ j, T j → S j) :
    Done inp f c T file :=
  ⟨h.1, fun p hp hT => h.2 p hp (hST _ hT)⟩

theorem done_all (inp : List Nat) (f : Nat → Nat) (c : Nat) (S : Nat → Prop)
    (file : List Nat) (hc : 0 < c) (h : Done inp f c S file)
    (hS : ∀ j, j < (inp.length + c - 1) / c → S j) : file = inp.map f := by
  apply List.ext_getElem?
  intro p
  by_cases hp : p < inp.length
  · exact h.2 p hp (hS _ (div_lt_numChunks inp.length c p hc hp))
  · rw [List.getElem?_eq_none (by rw [h.1]; omega),
      List.getElem?_eq_none (by rw [List.length_map]; omega)]

theorem done_writeAt (inp file : List Nat) (f : Nat → Nat) (c i : Nat) (S : Nat → Prop)
    (hc : 0 < c) (hi : i < (inp.length + c - 1) / c) (h : Done inp f c S file) :
    Done inp f c (fun j => S j ∨ j = i)
      (writeAt file (i * c) (((inp.drop (i * c)).take (min c (inp.length - i * c))).map f)) := by
  have hb := chunk_bounds inp.length c i hc hi
  have hlen : (((inp.drop (i * c)).take (min c (inp.length - i * c))).map f).length
      = min c (inp.length - i * c) := by
    rw [List.length_map, List.length_take, List.length_drop]
    omega
  have hfit : i * c + (((inp.drop (i * c)).take (min c (inp.length - i * c))).map f).length
      ≤ file.length := by
    rw [hlen, h.1]
    omega
  refine ⟨by rw [length_writeAt _ _ _ hfit, h.1], ?_⟩
  intro p hp hS
  rw [getElem?_writeAt _ _ _ _ hfit, hlen]
  have hiff := in_range_iff_div inp.length c i p hc hi
  by_cases hin : i * c ≤ p ∧ p < i * c + min c (inp.length - i * c)
  · rw [if_pos hin]
    exact getElem?_chunk_data inp f (i * c) _ p hin.1 hin.2
  · rw [if_neg hin]
    rcases hS with hS | hS
    · exact h.2 p hp hS
    · exact absurd (hiff.2 ⟨hp, hS⟩) hin

theorem numChunks_le_size (size c : Nat) (hc : 0 < c) : (size + c - 1) / c ≤ size := by
  rcases Nat.eq_zero_or_pos size with h0 | hpos
  · subst h0
    have : (0 + c - 1) / c = 0 := Nat.div_eq_of_lt (by omega)
    omega
  · apply Nat.div_le_of_le_mul
    have h1 : size - 1 ≤ c * (size - 1) := Nat.le_mul_of_pos_left _ hc
    have h2 : c * size = c * (size - 1) + c := by
      have : size = (size - 1) + 1 := by omega
      conv_lhs => rw [this]
      rw [Nat.mul_succ]
    omega

theorem freshStep_good (b : Nat → Bool) (inp file : List Nat) (c i : Nat) (key : Int)
    (mode : Mode) (s : Streams) (hq : Quiet s)
    (hc : 0 < c) (hs : inp.length < 2 ^ 63) (hi : i < (inp.length + c - 1) / c) :
    Quiet (freshStep (Device.reliableWith b) inp inp.length c key mode (s, file) i).1 ∧
    closeOut (Device.reliableWith b)
        (freshStep (Device.reliableWith b) inp inp.length c key mode (s, file) i).1
        (freshStep (Device.reliableWith b) inp inp.length c key mode (s, file) i).2
      = writeAt (closeOut (Device.reliableWith b) s file) (i * c)
          (((inp.drop (i * c)).take (min c (inp.length - i * c))).map
            (shiftByte (normKey key) mode)) := by
  have hs64 : inp.length < U64 := by unfold U64; omega
  have hb := chunk_bounds inp.length c i hc hi
  unfold freshStep
  simp only [chunkOffset_eq inp.length c i hc hs64 hi, chunkLen_eq inp.length c i hc hs64 hi]
  exact chunkStep_good b inp _ file key mode (i * c) _ s hq (by omega) (by omega) (by omega)

theorem serial_step_good (b : Nat → Bool) (inp buf file : List Nat) (c i : Nat) (key : Int)
    (mode : Mode) (s : Streams) (hq : Quiet s)
    (hc : 0 < c) (hs : inp.length < 2 ^ 63) (hi : i < (inp.length + c - 1) / c) :
    Quiet (Serial.step (Device.reliableWith b) inp inp.length c key mode (s, buf, file) i).1 ∧
    closeOut (Device.reliableWith b)
        (Serial.step (Device.reliableWith b) inp inp.length c key mode (s, buf, file) i).1
        (Serial.step (Device.reliableWith b) inp inp.length c key mode (s, buf, file) i).2.2
      = writeAt (closeOut (Device.reliableWith b) s file) (i * c)
          (((inp.drop (i * c)).take (min c (inp.length - i * c))).map
            (shiftByte (normKey key) mode)) := by
  have hs64 : inp.length < U64 := by unfold U64; omega
  have hb := chunk_bounds inp.length c i hc hi
  unfold Serial.step
  simp only [chunkOffset_eq inp.length c i hc hs64 hi, chunkLen_eq inp.length c i hc hs64 hi]
  exact chunkStep_good b inp buf file key mode (i * c) _ s hq (by omega) (by omega) (by omega)

/-- A run of the fresh-buffer body over indices below the chunk count keeps the
streams good and completes the chunks it visits (in the file as it is once the
buffer of the output stream is written out). -/
theorem fold_freshStep_good (b : Nat → Bool) (inp : List Nat) (c : Nat) (key : Int)
    (mode : Mode) (hc : 0 < c) (hs : inp.length < 2 ^ 63) :
    ∀ (L : List Nat) (S : Nat → Prop) (st : Streams × List Nat),
      (∀ i ∈ L, i < (inp.length + c - 1) / c) → Quiet st.1 →
      Done inp (shiftByte (normKey key) mode) c S
        (closeOut (Device.reliableWith b) st.1 st.2) →
      Quiet (L.foldl (freshStep (Device.reliableWith b) inp inp.length c key mode) st).1 ∧
      Done inp (shiftByte (normKey key) mode) c (fun j => S j ∨ j ∈ L)
        (closeOut (Device.reliableWith b)
          (L.foldl (freshStep (Device.reliableWith b) inp inp.length c key mode) st).1
          (L.foldl (freshStep (Device.reliableWith b) inp inp.length c key mode) st).2) := by
  intro L
  induction L with
  | nil =>
    intro S st _ hq h
    exact ⟨hq, done_mono _ _ _ _ _ _ h (fun j hj => by simpa using hj)⟩
  | cons i L ih =>
    intro S st hL hq h
    obtain ⟨s, file⟩ := st
    have hi := hL i (List.mem_cons_self _ _)
    obtain ⟨q1, e1⟩ := freshStep_good b inp file c i key mode s hq hc hs hi
    have h2 := done_writeAt inp _ _ c i S hc hi h
    rw [← e1] at h2
    obtain ⟨q2, hd⟩ := ih _ _ (fun j hj => hL j (List.mem_cons_of_mem _ hj)) q1 h2
    rw [List.foldl_cons]
    refine ⟨q2, done_mono _ _ _ _ _ _ hd ?_⟩
    intro j hj
    rcases hj with hj | hj
    · exact Or.inl (Or.inl hj)
    · rcases List.mem_cons.1 hj with hj | hj
      · exact Or.inl (Or.inr hj)
      · exact Or.inr hj

theorem fold_serial_step_good (b : Nat → Bool) (inp : List Nat) (c : Nat) (key : Int)
    (mode : Mode) (hc : 0 < c) (hs : inp.length < 2 ^ 63) :
    ∀ (L : List Nat) (S : Nat → Prop) (st : Streams × List Nat × List Nat),
      (∀ i ∈ L, i < (inp.length + c - 1) / c) → Quiet st.1 →
      Done inp (shiftByte (normKey key) mode) c S
        (closeOut (Device.reliableWith b) st.1 st.2.2) →
      Quiet (L.foldl (Serial.step (Device.reliableWith b) inp inp.length c key mode) st).1 ∧
      Done inp (shiftByte (normKey key) mode) c (fun j => S j ∨ j ∈ L)
        (closeOut (Device.reliableWith b)
          (L.foldl (Serial.step (Device.reliableWith b) inp inp.length c key mode) st).1
          (L.foldl (Serial.step (Device.reliableWith b) inp inp.length c key mode) st).2.2) := by
  intro L
  induction L with
  | nil =>
    intro S st _ hq h
    exact ⟨hq, done_mono _ _ _ _ _ _ h (fun j hj => by simpa using hj)⟩
  | cons i L ih =>
    intro S st hL hq h
    obtain ⟨s, buf, file⟩ := st
    have hi := hL i (List.mem_cons_self _ _)
    obtain ⟨q1, e1⟩ := serial_step_good b inp buf file c i key mode s hq hc hs hi
    have h2 := done_writeAt inp _ _ c i S hc hi h
    rw [← e1] at h2
    obtain ⟨q2, hd⟩ := ih _ _ (fun j hj => hL j (List.mem_cons_of_mem _ hj)) q1 h2
    rw [List.foldl_cons]
    refine ⟨q2, done_mono _ _ _ _ _ _ hd ?_⟩
    intro j hj
    rcases hj with hj | hj
    · exact Or.inl (Or.inl hj)
    · rcases List.mem_cons.1 hj with hj | hj
      · exact Or.inl (Or.inr hj)
      · exact Or.inr hj

theorem quiet_opened : Quiet ⟨false, false, none⟩ :=
  ⟨rfl, rfl, fun _ _ h => by cases h⟩

theorem done_start (inp : List Nat) (f : Nat → Nat) (c : Nat) (file : List Nat)
    (h : file.length = inp.length) : Done inp f c (fun _ => False) file :=
  ⟨h, fun _ _ hF => hF.elim⟩

/-! ## The three back ends on a reliable device -/

/-- Sequential loop, no wrap-around: the output is the transformed input. -/
theorem serial_run_good (b : Nat → Bool) (inp file : List Nat) (c : Nat) (key : Int)
    (mode : Mode) (hc : 0 < c) (hs : inp.length < 2 ^ 63) (hno : inp.length + c - 1 < U64)
    (hfile : file.length = inp.length) :
    Serial.run (Device.reliableWith b) inp inp.length c key mode ⟨false, false, none⟩ file
      = inp.map (shiftByte (normKey key) mode) := by
  have hN := numChunks_of_no_overflow inp.length c hc hno
  obtain ⟨_, hd⟩ := fold_serial_step_good b inp c key mode hc hs
    (List.range ((inp.length + c - 1) / c)) (fun _ => False)
    (⟨false, false, none⟩, List.replicate c 0, file)
    (fun i hi => List.mem_range.1 hi) quiet_opened
    (by rw [closeOut_of_pending_none _ _ _ rfl]; exact done_start inp _ c file hfile)
  unfold Serial.run Serial.loop
  rw [hN]
  exact done_all inp _ c _ _ hc hd (fun j hj => Or.inr (List.mem_range.2 hj))

theorem omp_indices_eq (size c : Nat) (hc : 0 < c) (hs : size < 2 ^ 63)
    (hno : size + c - 1 < U64) :
    OpenMP.indices size c = List.range ((size + c - 1) / c) := by
  have hN := numChunks_of_no_overflow size c hc hno
  have hle := numChunks_le_size size c hc
  unfold OpenMP.indices
  rw [hN, toLongLong_of_lt _ (by omega), Int.toNat_ofNat]

theorem omp_thread_good (b : Nat → Bool) (inp : List Nat) (c : Nat) (key : Int) (mode : Mode)
    (hc : 0 < c) (hs : inp.length < 2 ^ 63) (l : List Nat) (S : Nat → Prop) (file : List Nat)
    (hl : ∀ i ∈ l, i < (inp.length + c - 1) / c)
    (h : Done inp (shiftByte (normKey key) mode) c S file) :
    Done inp (shiftByte (normKey key) mode) c (fun j => S j ∨ j ∈ l)
      (OpenMP.thread (Device.reliableWith b) inp inp.length c key mode ⟨false, false, none⟩
        file l) := by
  obtain ⟨_, hd⟩ := fold_freshStep_good b inp c key mode hc hs l S
    (⟨false, false, none⟩, file) hl quiet_opened
    (by rw [closeOut_of_pending_none _ _ _ rfl]; exact h)
  exact hd

theorem omp_threads_good (b : Nat → Bool) (inp : List Nat) (c : Nat) (key : Int) (mode : Mode)
    (hc : 0 < c) (hs : inp.length < 2 ^ 63) :
    ∀ (asg : List (List Nat)) (S : Nat → Prop) (file : List Nat),
      (∀ l ∈ asg, ∀ i ∈ l, i < (inp.length + c - 1) / c) →
      Done inp (shiftByte (normKey key) mode) c S file →
      Done inp (shiftByte (normKey key) mode) c (fun j => S j ∨ j ∈ asg.flatten)
        (OpenMP.run (Device.reliableWith b) inp inp.length c key mode ⟨false, false, none⟩
          file asg) := by
  intro asg
  induction asg with
  | nil =>
    intro S file _ h
    exact done_mono _ _ _ _ _ _ h (fun j hj => by simpa using hj)
  | cons l asg ih =>
    intro S file hA h
    have hd := omp_thread_good b inp c key mode hc hs l S file
      (hA l (List.mem_cons_self _ _)) h
    have hrun : OpenMP.run (Device.reliableWith b) inp inp.length c key mode
        ⟨false, false, none⟩ file (l :: asg)
        = OpenMP.run (Device.reliableWith b) inp inp.length c key mode ⟨false, false, none⟩
            (OpenMP.thread (Device.reliableWith b) inp inp.length c key mode
              ⟨false, false, none⟩ file l) asg := by
      unfold OpenMP.run
      rw [List.foldl_cons]
    rw [hrun]
    refine done_mono _ _ _ _ _ _
      (ih _ _ (fun l2 hl2 => hA l2 (List.mem_cons_of_mem _ hl2)) hd) ?_
    intro j hj
    rcases hj with hj | hj
    · exact Or.inl (Or.inl hj)
    · rw [List.flatten_cons, List.mem_append] at hj
      rcases hj with hj | hj
      · exact Or.inl (Or.inr hj)
      · exact Or.inr hj

/-- Shared-memory loop, no wrap-around, any assignment of the indices to threads. -/
theorem omp_run_good (b : Nat → Bool) (inp file : List Nat) (c : Nat) (key : Int)
    (mode : Mode) (asg : List (List Nat)) (hc : 0 < c) (hs : inp.length < 2 ^ 63)
    (hno : inp.length + c - 1 < U64) (hfile : file.length = inp.length)
    (hasg : asg.flatten.Perm (OpenMP.indices inp.length c)) :
    OpenMP.run (Device.reliableWith b) inp inp.length c key mode ⟨false, false, none⟩ file asg
      = inp.map (shiftByte (normKey key) mode) := by
  rw [omp_indices_eq inp.length c hc hs hno] at hasg
  have hA : ∀ l ∈ asg, ∀ i ∈ l, i < (inp.length + c - 1) / c := by
    intro l hl i hi
    exact List.mem_range.1 (hasg.mem_iff.1 (List.mem_flatten.2 ⟨l, hl, hi⟩))
  have hd := omp_threads_good b inp c key mode hc hs asg (fun _ => False) file hA
    (done_start inp _ c file hfile)
  exact done_all inp _ c _ _ hc hd
    (fun j hj => Or.inr (hasg.mem_iff.2 (List.mem_range.2 hj)))

theorem mpi_body_good (D : Device) (inp file : List Nat) (size c i : Nat) (key : Int)
    (mode : Mode) (s : Streams) (hq : Quiet s) :
    MPI.body D inp size c key mode i (s, file)
      = some (freshStep D inp size c key mode (s, file) i) := by
  unfold MPI.body
  rw [if_neg (by simp [hq.1, hq.2.1])]

theorem foldBody_mpi_good (b : Nat → Bool) (inp : List Nat) (c : Nat) (key : Int)
    (mode : Mode) (hc : 0 < c) (hs : inp.length < 2 ^ 63) :
    ∀ (L : List Nat) (S : Nat → Prop) (st : Streams × List Nat),
      (∀ i ∈ L, i < (inp.length + c - 1) / c) → Quiet st.1 →
      Done inp (shiftByte (normKey key) mode) c S
        (closeOut (Device.reliableWith b) st.1 st.2) →
      ∃ st2, foldBody (MPI.body (Device.reliableWith b) inp inp.length c key mode) L st
          = MPI.LoopEnd.finished st2 ∧
        Done inp (shiftByte (normKey key) mode) c (fun j => S j ∨ j ∈ L)
          (closeOut (Device.reliableWith b) st2.1 st2.2) := by
  intro L
  induction L with
  | nil =>
    intro S st _ _ h
    exact ⟨st, rfl, done_mono _ _ _ _ _ _ h (fun j hj => by simpa using hj)⟩
  | cons i L ih =>
    intro S st hL hq h
    obtain ⟨s, file⟩ := st
    have hi := hL i (List.mem_cons_self _ _)
    obtain ⟨q1, e1⟩ := freshStep_good b inp file c i key mode s hq hc hs hi
    have h2 := done_writeAt inp _ _ c i S hc hi h
    rw [← e1] at h2
    obtain ⟨st2, e, hd⟩ := ih _ _ (fun j hj => hL j (List.mem_cons_of_mem _ hj)) q1 h2
    refine ⟨st2, ?_, done_mono _ _ _ _ _ _ hd ?_⟩
    · rw [foldBody, mpi_body_good _ inp file _ c i key mode s hq]
      exact e
    · intro j hj
      rcases hj with hj | hj
      · exact Or.inl (Or.inl hj)
      · rcases List.mem_cons.1 hj with hj | hj
        · exact Or.inl (Or.inr hj)
        · exact Or.inr hj

theorem mpi_rankLoop_good (b : Nat → Bool) (inp : List Nat) (c P r : Nat) (key : Int)
    (mode : Mode) (hc : 0 < c) (hs : inp.length < 2 ^ 63) (hno : inp.length + c - 1 < U64)
    (hP : 1 ≤ P) (hP31 : P < 2 ^ 31) (hr : r < P) (S : Nat → Prop) (file : List Nat)
    (h : Done inp (shiftByte (normKey key) mode) c S file) :
    ∃ st2, MPI.rankLoop (Device.reliableWith b) inp inp.length c key mode r P
        ⟨false, false, none⟩ file = MPI.LoopEnd.finished st2 ∧
      Done inp (shiftByte (normKey key) mode) c
        (fun j => S j ∨ (j < (inp.length + c - 1) / c ∧ j % P = r))
        (closeOut (Device.reliableWith b) st2.1 st2.2) := by
  have hN := numChunks_of_no_overflow inp.length c hc hno
  have hle := numChunks_le_size inp.length c hc
  have hb : (inp.length + c - 1) / c + P ≤ U64 := by unfold U64; omega
  have hr64 : r % U64 = r := Nat.mod_eq_of_lt (by unfold U64; omega)
  have hmem := mem_rank_stride r P ((inp.length + c - 1) / c) hP hr
  obtain ⟨st2, e, hd⟩ := foldBody_mpi_good b inp c key mode hc hs
    (strideFrom P ((inp.length + c - 1) / c) ((inp.length + c - 1) / c) r) S
    (⟨false, false, none⟩, file)
    (fun i hi => ((hmem i).1 hi).1) quiet_opened
    (by rw [closeOut_of_pending_none _ _ _ rfl]; exact h)
  refine ⟨st2, ?_, done_mono _ _ _ _ _ _ hd ?_⟩
  · unfold MPI.rankLoop
    rw [hN, hr64, rankFor_eq_foldBody P _ _ hP hb _ r _ (by omega)]
    exact e
  · intro j hj
    rcases hj with hj | hj
    · exact Or.inl hj
    · exact Or.inr ((hmem j).2 hj)

/-- Distributed loops, no wrap-around: the ranks of `order` complete their chunks. -/
theorem mpi_run_good (b : Nat → Bool) (inp : List Nat) (c P : Nat) (key : Int) (mode : Mode)
    (hc : 0 < c) (hs : inp.length < 2 ^ 63) (hno : inp.length + c - 1 < U64)
    (hP : 1 ≤ P) (hP31 : P < 2 ^ 31) :
    ∀ (order : List Nat) (S : Nat → Prop) (file : List Nat),
      (∀ r ∈ order, r < P) →
      Done inp (shiftByte (normKey key) mode) c S file →
      ∃ file2, MPI.run (Device.reliableWith b) inp inp.length c key mode P
          ⟨false, false, none⟩ file order = some file2 ∧
        Done inp (shiftByte (normKey key) mode) c
          (fun j => S j ∨ (j < (inp.length + c - 1) / c ∧ j % P ∈ order)) file2 := by
  intro order
  induction order with
  | nil =>
    intro S file _ h
    exact ⟨file, rfl, done_mono _ _ _ _ _ _ h (fun j hj => by simpa using hj)⟩
  | cons r order ih =>
    intro S file hO h
    obtain ⟨st1, e1, hd1⟩ := mpi_rankLoop_good b inp c P r key mode hc hs hno hP hP31
      (hO r (List.mem_cons_self _ _)) S file h
    obtain ⟨file2, e2, hd2⟩ := ih _ _ (fun q hq => hO q (List.mem_cons_of_mem _ hq)) hd1
    refine ⟨file2, ?_, done_mono _ _ _ _ _ _ hd2 ?_⟩
    · rw [MPI.run, e1]
      exact e2
    · intro j hj
      rcases hj with hj | ⟨hj1, hj2⟩
      · exact Or.inl (Or.inl hj)
      · rcases List.mem_cons.1 hj2 with hj2 | hj2
        · exact Or.inl (Or.inr ⟨hj1, hj2⟩)
        · exact Or.inr ⟨hj1, hj2⟩

theorem mpi_run_all_good (b : Nat → Bool) (inp file : List Nat) (c P : Nat) (key : Int)
    (mode : Mode) (order : List Nat) (hc : 0 < c) (hs : inp.length < 2 ^ 63)
    (hno : inp.length + c - 1 < U64) (hP : 1 ≤ P) (hP31 : P < 2 ^ 31)
    (hfile : file.length = inp.length) (horder : order.Perm (List.range P)) :
    MPI.run (Device.reliableWith b) inp inp.length c key mode P ⟨false, false, none⟩ file order
      = some (inp.map (shiftByte (normKey key) mode)) := by
  obtain ⟨file2, e, hd⟩ := mpi_run_good b inp c P key mode hc hs hno hP hP31 order
    (fun _ => False) file (fun r hr => List.mem_range.1 (horder.mem_iff.1 hr))
    (done_start inp _ c file hfile)
  rw [e, done_all inp _ c _ file2 hc hd
    (fun j hj => Or.inr ⟨hj, horder.mem_iff.2 (List.mem_range.2 (Nat.mod_lt j (by omega)))⟩)]

/-! ### When the chunk count wraps around to zero -/

theorem serial_run_zero (D : Device) (inp file : List Nat) (size c : Nat) (key : Int)
    (mode : Mode) (s : Streams) (hs : s.pending = none) (h0 : numChunks size c = 0) :
    Serial.run D inp size c key mode s file = file := by
  unfold Serial.run Serial.loop
  rw [h0]
  exact closeOut_of_pending_none D s file hs

theorem omp_run_nil (D : Device) (inp file : List Nat) (size c : Nat) (key : Int)
    (mode : Mode) (s : Streams) (hs : s.pending = none) :
    ∀ asg : List (List Nat), asg.flatten = [] →
      OpenMP.run D inp size c key mode s file asg = file := by
  intro asg
  induction asg with
  | nil => intro _; rfl
  | cons l asg ih =>
    intro h
    rw [List.flatten_cons, List.append_eq_nil] at h
    have hl : l = [] := h.1
    subst hl
    have hthread : OpenMP.thread D inp size c key mode s file [] = file :=
      closeOut_of_pending_none D s file hs
    have := ih h.2
    unfold OpenMP.run at this ⊢
    rw [List.foldl_cons, hthread]
    exact this

theorem omp_run_zero (D : Device) (inp file : List Nat) (size c : Nat) (key : Int)
    (mode : Mode) (s : Streams) (asg : List (List Nat)) (hs : s.pending = none)
    (h0 : numChunks size c = 0)
    (hasg : asg.flatten.Perm (OpenMP.indices size c)) :
    OpenMP.run D inp size c key mode s file asg = file := by
  have hi : OpenMP.indices size c = [] := by
    unfold OpenMP.indices
    rw [h0]
    rfl
  rw [hi] at hasg
  exact omp_run_nil D inp file size c key mode s hs asg (List.perm_nil.1 hasg)

theorem mpi_rankLoop_zero (D : Device) (inp file : List Nat) (size c r P : Nat) (key : Int)
    (mode : Mode) (s : Streams) (h0 : numChunks size c = 0) :
    MPI.rankLoop D inp size c key mode r P s file = MPI.LoopEnd.finished (s, file) := by
  unfold MPI.rankLoop
  rw [h0]
  rfl

theorem mpi_run_zero (D : Device) (inp : List Nat) (size c P : Nat) (key : Int)
    (mode : Mode) (s : Streams) (hs : s.pending = none) (h0 : numChunks size c = 0) :
    ∀ (order : List Nat) (file : List Nat),
      MPI.run D inp size c key mode P s file order = some file := by
  intro order
  induction order with
  | nil => intro file; rfl
  | cons r order ih =>
    intro file
    rw [MPI.run, mpi_rankLoop_zero D inp file size c r P key mode s h0]
    simp only [closeOut_of_pending_none D s file hs]
    exact ih file

/-! ## C4: the three back ends write the same file -/

/-- C4. Backend equivalence: on a reliable device, under every buffering policy
of the stream library, for every input, key, mode, chunk size `c > 0` and
process count `P ≥ 1`, with the output file pre-allocated to the size of the
input, the loops of the distributed program (rank `r` on the indices
`r, r + P, ...`, the ranks in any order) leave the same output file as the loop
of the sequential program over `0 .. numChunks - 1`, and so does the loop of
the shared-memory program for any assignment of the indices to threads. File
sizes are below `2 ^ 63` (they are stream offsets) and `c`, `P` lie in the
ranges of their types. -/
theorem backend_equivalence (b : Nat → Bool) (inp : List Nat) (key : Int) (mode : Mode)
    (c P : Nat) (order : List Nat) (asg : List (List Nat))
    (hc : 0 < c) (hc64 : c < U64) (hs : inp.length < 2 ^ 63)
    (hP : 1 ≤ P) (hP31 : P < 2 ^ 31)
    (horder : order.Perm (List.range P))
    (hasg : asg.flatten.Perm (OpenMP.indices inp.length c)) :
    MPI.run (Device.reliableWith b) inp inp.length c key mode P ⟨false, false, none⟩
        (List.replicate inp.length 0) order
      = some (Serial.run (Device.reliableWith b) inp inp.length c key mode
          ⟨false, false, none⟩ (List.replicate inp.length 0)) ∧
    OpenMP.run (Device.reliableWith b) inp inp.length c key mode ⟨false, false, none⟩
        (List.replicate inp.length 0) asg
      = Serial.run (Device.reliableWith b) inp inp.length c key mode ⟨false, false, none⟩
          (List.replicate inp.length 0) := by
  have hs64 : inp.length < U64 := by unfold U64; omega
  have hfile : (List.replicate inp.length 0).length = inp.length := List.length_replicate _ _
  rcases numChunks_cases inp.length c hs64 hc64 with hno | h0
  · rw [serial_run_good b inp _ c key mode hc hs hno hfile,
      omp_run_good b inp _ c key mode asg hc hs hno hfile hasg,
      mpi_run_all_good b inp _ c P key mode order hc hs hno hP hP31 hfile horder]
    exact ⟨rfl, rfl⟩
  · rw [serial_run_zero _ _ _ _ _ _ _ _ rfl h0, omp_run_zero _ _ _ _ _ _ _ _ asg rfl h0 hasg,
      mpi_run_zero _ _ _ _ _ _ _ _ rfl h0]
    exact ⟨rfl, rfl⟩

/-- Witness of C4: ten bytes, chunks of four, three ranks run in the order
2, 0, 1, and two threads with the blocks `[0, 1]` and `[2]`, under the
buffering policy of libstdc++. -/
theorem backend_equivalence_witness :
    MPI.run Device.reliable [10, 20, 30, 40, 50, 60, 70, 80, 90, 100] 10 4 3 Mode.Encrypt 3
        ⟨false, false, none⟩ (List.replicate 10 0) [2, 0, 1]
      = some (Serial.run Device.reliable [10, 20, 30, 40, 50, 60, 70, 80, 90, 100] 10 4 3
          Mode.Encrypt ⟨false, false, none⟩ (List.replicate 10 0)) ∧
    OpenMP.run Device.reliable [10, 20, 30, 40, 50, 60, 70, 80, 90, 100] 10 4 3 Mode.Encrypt
        ⟨false, false, none⟩ (List.replicate 10 0) [[0, 1], [2]]
      = Serial.run Device.reliable [10, 20, 30, 40, 50, 60, 70, 80, 90, 100] 10 4 3
          Mode.Encrypt ⟨false, false, none⟩ (List.replicate 10 0) :=
  backend_equivalence (fun n => decide (n < 1024)) [10, 20, 30, 40, 50, 60, 70, 80, 90, 100] 3
    Mode.Encrypt 4 3 [2, 0, 1] [[0, 1], [2]] (by decide) (by decide) (by decide) (by decide)
    (by decide) (by decide) (by decide)

/-! ## parseArgs -/

set_option linter.unusedTactic false
set_option linter.unreachableTactic false

theorem parseLoop_exited :
    ∀ (args : List String) (a : Args), parseLoop a args = Parsed.exited →
      "--help" ∈ args ∨ "-h" ∈ args
  | [], a, h => by
    rw [parseLoop.eq_1] at h
    cases h
  | [v], a, h => by
    rw [parseLoop.eq_2] at h
    split_ifs at h
    all_goals first
      | (cases h; done)
      | (rcases ‹v = "--help" ∨ v = "-h"› with e | e <;> simp [e])
  | v :: w :: r, a, h => by
    have ih := fun b hb => parseLoop_exited r b hb
    have lift : ("--help" ∈ r ∨ "-h" ∈ r) → ("--help" ∈ v :: w :: r ∨ "-h" ∈ v :: w :: r) := by
      intro hr
      rcases hr with hr | hr
      · exact Or.inl (List.mem_cons_of_mem _ (List.mem_cons_of_mem _ hr))
      · exact Or.inr (List.mem_cons_of_mem _ (List.mem_cons_of_mem _ hr))
    rw [parseLoop.eq_3] at h
    split_ifs at h
    all_goals first
      | exact lift (ih _ h)
      | (cases h; done)
      | (split at h <;> first | exact lift (ih _ h) | (cases h; done))
      | (rcases ‹v = "--help" ∨ v = "-h"› with e | e <;> simp [e])

/-- One option with its value in front of arguments that were read to the end. -/
theorem parseLoop_returned_step (v w : String) (r : List String) (a a2 b : Args)
    (hv : v ∈ valueOptions) (hmode : v = "--mode" → w = "enc" ∨ w = "dec")
    (hin : a2.inPath = a.inPath ∨ v = "--in") (hout : a2.outPath = a.outPath ∨ v = "--out")
    (hchunk : a2.chunkSize = a.chunkSize ∨ a2.chunkSize < U64)
    (ih : wellFormedPairs r = true ∧
        (b.inPath = a2.inPath ∨ "--in" ∈ r) ∧ (b.outPath = a2.outPath ∨ "--out" ∈ r) ∧
        (b.chunkSize = a2.chunkSize ∨ b.chunkSize < U64)) :
    wellFormedPairs (v :: w :: r) = true ∧
      (b.inPath = a.inPath ∨ "--in" ∈ v :: w :: r) ∧
      (b.outPath = a.outPath ∨ "--out" ∈ v :: w :: r) ∧
      (b.chunkSize = a.chunkSize ∨ b.chunkSize < U64) := by
  obtain ⟨p1, p2, p3, p4⟩ := ih
  refine ⟨?_, ?_, ?_, ?_⟩
  · have hm : v ≠ "--mode" ∨ w = "enc" ∨ w = "dec" := by
      by_cases hvm : v = "--mode"
      · exact Or.inr (hmode hvm)
      · exact Or.inl hvm
    simp only [wellFormedPairs, p1, Bool.and_true, Bool.and_eq_true, Bool.or_eq_true,
      decide_eq_true_eq]
    exact ⟨hv, by tauto⟩
  · rcases p2 with p2 | p2
    · rcases hin with hin | hin
      · exact Or.inl (p2.trans hin)
      · exact Or.inr (by rw [hin]; exact List.mem_cons_self _ _)
    · exact Or.inr (List.mem_cons_of_mem _ (List.mem_cons_of_mem _ p2))
  · rcases p3 with p3 | p3
    · rcases hout with hout | hout
      · exact Or.inl (p3.trans hout)
      · exact Or.inr (by rw [hout]; exact List.mem_cons_self _ _)
    · exact Or.inr (List.mem_cons_of_mem _ (List.mem_cons_of_mem _ p3))
  · rcases p4 with p4 | p4
    · rcases hchunk with hchunk | hchunk
      · exact Or.inl (p4.trans hchunk)
      · exact Or.inr (by rw [p4]; exact hchunk)
    · exact Or.inr p4

/-- What a completed pass of the option loop says about the arguments and the
structure it returns. -/
theorem parseLoop_returned :
    ∀ (args : List String) (a b : Args), parseLoop a args = Parsed.returned b →
      wellFormedPairs args = true ∧
        (b.inPath = a.inPath ∨ "--in" ∈ args) ∧ (b.outPath = a.outPath ∨ "--out" ∈ args) ∧
        (b.chunkSize = a.chunkSize ∨ b.chunkSize < U64)
  | [], a, b, h => by
    rw [parseLoop.eq_1] at h
    cases h
    exact ⟨rfl, Or.inl rfl, Or.inl rfl, Or.inl rfl⟩
  | [v], a, b, h => by
    rw [parseLoop.eq_2] at h
    split_ifs at h <;> cases h
  | v :: w :: r, a, b, h => by
    have ih := fun a2 h2 => parseLoop_returned r a2 b h2
    have hU : ∀ c : Nat, c % U64 < U64 := fun c => Nat.mod_lt c (by unfold U64; omega)
    have fin : ∀ a2 : Args, parseLoop a2 r = Parsed.returned b →
        v ∈ valueOptions → (v = "--mode" → w = "enc" ∨ w = "dec") →
        (a2.inPath = a.inPath ∨ v = "--in") → (a2.outPath = a.outPath ∨ v = "--out") →
        (a2.chunkSize = a.chunkSize ∨ a2.chunkSize < U64) →
        wellFormedPairs (v :: w :: r) = true ∧
          (b.inPath = a.inPath ∨ "--in" ∈ v :: w :: r) ∧
          (b.outPath = a.outPath ∨ "--out" ∈ v :: w :: r) ∧
          (b.chunkSize = a.chunkSize ∨ b.chunkSize < U64) :=
      fun a2 h2 k1 k2 k3 k4 k5 =>
        parseLoop_returned_step v w r a a2 b k1 k2 k3 k4 k5 (ih a2 h2)
    rw [parseLoop.eq_3] at h
    split_ifs at h
    all_goals first
      | (cases h; done)
      | (refine fin _ h ?_ ?_ ?_ ?_ ?_ <;>
          first
            | exact Or.inl rfl
            | exact Or.inr ‹_›
            | exact Or.inr (hU _)
            | (intro hm; first | exact Or.inl ‹_› | exact Or.inr ‹_› | exact absurd hm ‹_›)
            | simp [valueOptions, *])
      | (split at h <;> first
          | (cases h; done)
          | (refine fin _ h ?_ ?_ ?_ ?_ ?_ <;>
              first
                | exact Or.inl rfl
                | exact Or.inr ‹_›
                | exact Or.inr (hU _)
                | (intro hm; first | exact Or.inl ‹_› | exact Or.inr ‹_› | exact absurd hm ‹_›)
                | simp [valueOptions, *]))

/-! ## C6: configuration validation -/

theorem checkArgs_returned (a b : Args) (h : checkArgs a = Parsed.returned b) :
    b = a ∧ a.inPath ≠ "" ∧ a.outPath ≠ "" ∧ a.chunkSize ≠ 0 := by
  unfold checkArgs at h
  split_ifs at h with h1 h2
  cases h
  exact ⟨rfl, fun e => h1 (Or.inl e), fun e => h1 (Or.inr e), h2⟩

theorem parseArgs_returned (argv : List String) (a : Args)
    (h : parseArgs argv = Parsed.returned a) :
    parseLoop {} (argv.drop 1) = Parsed.returned a ∧
      a.inPath ≠ "" ∧ a.outPath ≠ "" ∧ a.chunkSize ≠ 0 := by
  unfold parseArgs at h
  split at h
  · next b hb =>
    obtain ⟨e, h1, h2, h3⟩ := checkArgs_returned b a h
    subst e
    exact ⟨hb, h1, h2, h3⟩
  · cases h
  · cases h

/-- A chunk size written with a minus sign is not rejected: `std::stoull` negates
inside the unsigned type, so `--chunk -5` gives the chunk size `2 ^ 64 - 5`. -/
theorem parseArgs_negative_chunk :
    parseArgs ["prog", "--in", "a", "--out", "b", "--chunk", "-5"]
      = Parsed.returned { inPath := "a", outPath := "b", chunkSize := 18446744073709551611 } := by
  decide

/-- C6, the claim as stated fails: for the arguments `prog --help` the option
`--in` is missing, yet `parseArgs` does not throw; it ends the process with
status 0. -/
theorem parseArgs_help_exits :
    "--in" ∉ ["prog", "--help"] ∧
    parseArgs ["prog", "--help"] = Parsed.exited ∧
    (¬ ∃ msg, parseArgs ["prog", "--help"] = Parsed.threw msg) ∧
    (Serial.main (Env.ideal []) ["prog", "--help"]).status = Status.exit 0 := by
  refine ⟨by decide, by decide, ?_, by decide⟩
  rintro ⟨msg, h⟩
  have e : parseArgs ["prog", "--help"] = Parsed.exited := by decide
  rw [e] at h
  cases h

/-- C6, amended. `parseArgs` ends in one of three ways. It leaves through
`std::exit(0)` only when `--help` or `-h` is among the arguments. Whenever it
does not leave that way, it throws if `--in` or `--out` is missing or the
arguments are not a sequence of known options with their values and valid
modes (unknown option, option without value at the end, mode other than `enc`
and `dec`), and it throws if the loop ends with an empty input or output path
or with chunk size 0. Whenever it returns a configuration, both paths are
non-empty and the chunk size is positive (and a 64-bit value). -/
theorem parseArgs_validation (argv : List String) :
    (parseArgs argv = Parsed.exited → "--help" ∈ argv.drop 1 ∨ "-h" ∈ argv.drop 1) ∧
    (parseArgs argv ≠ Parsed.exited →
      ("--in" ∉ argv.drop 1 ∨ "--out" ∉ argv.drop 1 ∨ wellFormedPairs (argv.drop 1) = false) →
      ∃ msg, parseArgs argv = Parsed.threw msg) ∧
    (∀ a, parseLoop {} (argv.drop 1) = Parsed.returned a →
      (a.inPath = "" ∨ a.outPath = "" ∨ a.chunkSize = 0) →
      ∃ msg, parseArgs argv = Parsed.threw msg) ∧
    (∀ a, parseArgs argv = Parsed.returned a →
      a.inPath ≠ "" ∧ a.outPath ≠ "" ∧ 0 < a.chunkSize ∧ a.chunkSize < U64) := by
  have hret : ∀ a, parseArgs argv = Parsed.returned a →
      a.inPath ≠ "" ∧ a.outPath ≠ "" ∧ 0 < a.chunkSize ∧ a.chunkSize < U64 ∧
      "--in" ∈ argv.drop 1 ∧ "--out" ∈ argv.drop 1 ∧ wellFormedPairs (argv.drop 1) = true := by
    intro a h
    obtain ⟨hl, h1, h2, h3⟩ := parseArgs_returned argv a h
    obtain ⟨p1, p2, p3, p4⟩ := parseLoop_returned _ _ _ hl
    refine ⟨h1, h2, by omega, ?_, ?_, ?_, p1⟩
    · rcases p4 with p4 | p4
      · rw [p4]
        decide
      · exact p4
    · rcases p2 with p2 | p2
      · exact absurd p2 h1
      · exact p2
    · rcases p3 with p3 | p3
      · exact absurd p3 h2
      · exact p3
  refine ⟨?_, ?_, ?_, fun a h => ⟨(hret a h).1, (hret a h).2.1, (hret a h).2.2.1,
    (hret a h).2.2.2.1⟩⟩
  · intro h
    unfold parseArgs at h
    split at h
    · next b hb =>
      unfold checkArgs at h
      split_ifs at h
    · cases h
    · next hb => exact parseLoop_exited _ _ hb
  · intro hne hbad
    cases hp : parseArgs argv with
    | returned a =>
      obtain ⟨_, _, _, _, q1, q2, q3⟩ := hret a hp
      rcases hbad with hbad | hbad | hbad
      · exact absurd q1 hbad
      · exact absurd q2 hbad
      · rw [q3] at hbad
        cases hbad
    | threw msg => exact ⟨msg, rfl⟩
    | exited => exact absurd hp hne
  · intro a hl hbad
    unfold parseArgs
    rw [hl]
    simp only [checkArgs]
    split_ifs with k1 k2
    · exact ⟨_, rfl⟩
    · exact ⟨_, rfl⟩
    · exact absurd hbad (by tauto)

/-- Witness of C6: a command line without `--out` throws, and one with both
paths returns them. -/
theorem parseArgs_validation_witness :
    (∃ msg, parseArgs ["prog", "--in", "a.log", "--mode", "enc"] = Parsed.threw msg) ∧
    ("a.log" ≠ "" ∧ "a.enc" ≠ "" ∧ 0 < 4194304 ∧ 4194304 < U64) :=
  ⟨(parseArgs_validation ["prog", "--in", "a.log", "--mode", "enc"]).2.1 (by decide)
      (Or.inr (Or.inl (by decide))),
    (parseArgs_validation ["prog", "--in", "a.log", "--out", "a.enc"]).2.2.2
      { inPath := "a.log", outPath := "a.enc" } (by decide)⟩

/-! ## C5: chunk-size invariance -/

/-- Without wrap-around of the chunk count the output does not depend on the
chunk size: it is the transformed input, for the sequential and for the
shared-memory loop. -/
theorem chunk_size_invariance_of_no_overflow (b : Nat → Bool) (inp : List Nat) (key : Int)
    (mode : Mode) (c1 c2 : Nat) (hc1 : 0 < c1) (hc2 : 0 < c2) (hs : inp.length < 2 ^ 63)
    (h1 : inp.length + c1 - 1 < U64) (h2 : inp.length + c2 - 1 < U64) :
    Serial.run (Device.reliableWith b) inp inp.length c1 key mode ⟨false, false, none⟩
        (List.replicate inp.length 0)
      = Serial.run (Device.reliableWith b) inp inp.length c2 key mode ⟨false, false, none⟩
          (List.replicate inp.length 0) := by
  rw [serial_run_good b inp _ c1 key mode hc1 hs h1 (List.length_replicate _ _),
    serial_run_good b inp _ c2 key mode hc2 hs h2 (List.length_replicate _ _)]

/-- C5, at the failing input: the two-byte file `[1, 2]`, key 3, encryption.
With chunk size 1 the shared-memory and the distributed program write `[4, 5]`;
with chunk size `2 ^ 64 - 1`, which `parseArgs` accepts, the chunk count wraps
around to 0, no chunk is processed, and both programs leave the pre-allocated
zero bytes `[0, 0]` and report success. -/
theorem chunk_size_overflow_failure :
    OpenMP.main (Env.ideal [1, 2]) ["prog", "--in", "a", "--out", "b", "--chunk", "1"]
        [OpenMP.indices 2 1]
      = ⟨Status.exit 0, some [4, 5]⟩ ∧
    OpenMP.main (Env.ideal [1, 2])
        ["prog", "--in", "a", "--out", "b", "--chunk", "18446744073709551615"]
        [OpenMP.indices 2 18446744073709551615]
      = ⟨Status.exit 0, some [0, 0]⟩ ∧
    MPI.main (Env.ideal [1, 2]) ["prog", "--in", "a", "--out", "b", "--chunk", "1"] 0 1
      = ⟨Status.exit 0, some [4, 5]⟩ ∧
    MPI.main (Env.ideal [1, 2])
        ["prog", "--in", "a", "--out", "b", "--chunk", "18446744073709551615"] 0 1
      = ⟨Status.exit 0, some [0, 0]⟩ ∧
    numChunks 2 18446744073709551615 = 0 := by
  refine ⟨by decide, by decide, by decide, by decide, by decide⟩

/-! ## C7: chunk I/O failures -/

/-- A short write can go unnoticed in the distributed program even when the
rank has a further chunk: on a device whose writes move no byte, a four-byte
file in chunks of two, the two bytes of chunk 0 stay in the buffer of the
stream, the `seekp` of chunk 1 fails to flush them, after the test of the
streams in that iteration, and the rank returns 0 with no byte written. With
a third chunk the test at its start calls `MPI_Abort`. -/
theorem mpi_buffered_write_failure :
    MPI.main (Env.writeFault [1, 2, 3, 4])
        ["prog", "--in", "a", "--out", "b", "--chunk", "2"] 0 1
      = ⟨Status.exit 0, some [0, 0, 0, 0]⟩ ∧
    MPI.main (Env.writeFault [1, 2, 3, 4, 5, 6])
        ["prog", "--in", "a", "--out", "b", "--chunk", "2"] 0 1
      = ⟨Status.abort 1, some [0, 0, 0, 0, 0, 0]⟩ := by
  exact ⟨by decide, by decide⟩

end AnubisX
